import Mathlib

/-! http_server.c : a shallow embedding and its checked properties

The C program is one acceptor loop (`accept_client`) handing connections to
`MAX_WORKERS` epoll workers (`worker_function`), which answer every read that
holds a blank line with a canned response, every `send_err_cycle`-th one with
an entry of `err_response`.

Conventions of the embedding
* `int` variables are `Int`. The two `atomic_int` counters are updated with
  `atomic_fetch_add` / `atomic_fetch_sub`, which wrap in two's complement.
  The plain `int` increments (`resp_cnt++`, `err_index_g++`,
  `next_worker + 1`) overflow only from `INT_MAX`, which is undefined
  behaviour in C: the embedding returns `none` there, as it does for a read
  outside `err_response` or `workers`.
* `float` and `double` values are rationals, infinities or NaN; every
  operation rounds to nearest, ties to even (IEEE 754).
* The threads are interleaved at the granularity of one handled event.
* `printf` / `perror` output is not modelled; the socket calls are recorded
  as a list of `Effect`s.
-/

namespace HttpServer

/-! ## Constants and tables (lines 19-102) -/

abbrev MAX_WORKERS : Nat := 4
def BUFFER_SIZE : Nat := 8192
abbrev HTTP_ERROR_RESP_NUM : Nat := 6

def INT_MAX : Int := 2147483647
def INT_MIN : Int := -2147483648

/-- The table `err_response` (lines 36-92), adjacent literals concatenated;
the braces of the JSON bodies are written as hex escapes. -/
def err_response : List String := [
  "HTTP/1.1 400 Bad Request\r\n" ++
  "Content-Type: application/json\r\n" ++
  "Content-Length: 52\r\n" ++
  "\r\n" ++
  "\x7b\r\n" ++
  "  \"error\": \"Bad Request\",\r\n" ++
  "  \"message\": \"Invalid input\"\r\n" ++
  "\x7d",

  "HTTP/1.1 401 Unauthorized\r\n" ++
  "WWW-Authenticate: Bearer realm=\"example\"\r\n" ++
  "Content-Type: application/json\r\n" ++
  "Content-Length: 55\r\n" ++
  "\r\n" ++
  "\x7b\r\n" ++
  "  \"error\": \"Unauthorized\",\r\n" ++
  "  \"message\": \"Invalid token\"\r\n" ++
  "\x7d",

  "HTTP/1.1 403 Forbidden\r\n" ++
  "Content-Type: application/json\r\n" ++
  "Content-Length: 54\r\n" ++
  "\r\n" ++
  "\x7b\r\n" ++
  "  \"error\": \"Forbidden\",\r\n" ++
  "  \"message\": \"Access denied\"\r\n" ++
  "\x7d",

  "HTTP/1.1 404 Not Found\r\n" ++
  "Content-Type: application/json\r\n" ++
  "Content-Length: 56\r\n" ++
  "\r\n" ++
  "\x7b\r\n" ++
  "  \"error\": \"Not Found\",\r\n" ++
  "  \"message\": \"Resource not found\"\r\n" ++
  "\x7d",

  "HTTP/1.1 500 Internal Server Error\r\n" ++
  "Content-Type: application/json\r\n" ++
  "Content-Length: 63\r\n" ++
  "\r\n" ++
  "\x7b\r\n" ++
  "  \"error\": \"Internal Server Error\",\r\n" ++
  "  \"message\": \"Something went wrong\"\r\n" ++
  "\x7d",

  "HTTP/1.1 503 Service Unavailable\r\n" ++
  "Retry-After: 3600\r\n" ++
  "Content-Type: application/json\r\n" ++
  "Content-Length: 65\r\n" ++
  "\r\n" ++
  "\x7b\r\n" ++
  "  \"error\": \"Service Unavailable\",\r\n" ++
  "  \"message\": \"Server is overloaded\"\r\n" ++
  "\x7d"
]

/-- The local `response` of `worker_function` (lines 214-219). -/
def ok_response : String :=
  "HTTP/1.1 200 OK\r\n" ++
  "Content-Length: 13\r\n" ++
  "Connection: keep-alive\r\n" ++
  "Content-Type: text/plain\r\n\r\n" ++
  "Hello, world!"

/-! ## Reading a response the way an HTTP client does -/

/-- The characters after the first CR LF CR LF, when there is one. -/
def bodyOf : List Char → Option (List Char)
  | [] => none
  | c :: rest =>
    if [ '\r', '\n', '\r', '\n' ].isPrefixOf (c :: rest) then some (rest.drop 3)
    else bodyOf rest

/-- The characters before the first CR LF CR LF (the whole text without one). -/
def headOf : List Char → List Char
  | [] => []
  | c :: rest =>
    if [ '\r', '\n', '\r', '\n' ].isPrefixOf (c :: rest) then []
    else c :: headOf rest

/-- The text that follows the first occurrence of `name` up to the end of
its line. -/
def fieldOf (name : List Char) : List Char → Option (List Char)
  | [] => none
  | c :: rest =>
    if name.isPrefixOf (c :: rest) then
      some (((c :: rest).drop name.length).takeWhile (fun d => d != '\r'))
    else fieldOf name rest

/-- Decimal value of a run of digits; `none` when empty or not all digits. -/
def decimalOf (ds : List Char) : Option Nat :=
  if ds ≠ [] ∧ ds.all Char.isDigit then
    some (ds.foldl (fun acc d => 10 * acc + (d.toNat - '0'.toNat)) 0)
  else none

/-- Value of the `Content-Length` header of a response. -/
def contentLength (resp : String) : Option Nat :=
  (fieldOf "Content-Length: ".toList (headOf resp.toList)).bind decimalOf

/-- Number of bytes of the body of a response. -/
def bodyBytes (resp : String) : Option Nat :=
  (bodyOf resp.toList).map (fun b => (String.mk b).utf8ByteSize)

/-! ## C strings and libc -/

/-- A byte of memory. -/
abbrev Byte := Fin 256

def NUL : Byte := 0
def CR : Byte := 13
def LF : Byte := 10

/-- The four bytes of the literal `"\r\n\r\n"`. -/
def CRLFCRLF : List Byte := [CR, LF, CR, LF]

/-- The C string held by a char array: the bytes before the first NUL. -/
def cstr (mem : List Byte) : List Byte := mem.takeWhile (fun b => b != NUL)

/-- Offset of the first place where `needle` starts in `hay`. -/
def find_sub {α : Type} [BEq α] (needle : List α) : List α → Option Nat
  | [] => if needle.isPrefixOf [] then some 0 else none
  | c :: rest =>
    if needle.isPrefixOf (c :: rest) then some 0
    else (find_sub needle rest).map (fun k => k + 1)

/-- `strstr(haystack, needle)`: both arguments are read as C strings; the
result is the offset of the match, `none` for a null pointer. -/
def strstr (haystack needle : List Byte) : Option Nat :=
  find_sub (cstr needle) (cstr haystack)

def EAGAIN : Int := 11
def EWOULDBLOCK : Int := 11

/-- `atomic_fetch_add` on an `atomic_int`: two's complement, wrapping. -/
def atomic_fetch_add (v d : Int) : Int := Int.bmod (v + d) (2 ^ 32)

/-- `atomic_fetch_sub` on an `atomic_int`: two's complement, wrapping. -/
def atomic_fetch_sub (v d : Int) : Int := Int.bmod (v - d) (2 ^ 32)

/-- `x++` on an `int`: undefined from `INT_MAX`. -/
def int_incr (x : Int) : Option Int :=
  if x < INT_MAX then some (x + 1) else none

/-! ## State -/

/-- The global variables read or written after start-up (lines 29-102). -/
structure Globals where
  next_worker : Int
  request_count : Int
  active_connections : Int
  debug_mode : Int
  delay : Int
  send_err_cycle : Int
  err_index_g : Int
  deriving DecidableEq, Repr

/-- The locals of one `worker_function` activation (lines 169-170). -/
structure WorkerLocal where
  resp_cnt : Int
  err_idx : Int
  deriving DecidableEq, Repr

/-- What the program does to the outside world. -/
inductive Effect where
  | send (client_socket : Int) (response : String)
  | close (client_socket : Int)
  | epoll_ctl_del (thread_id : Nat) (client_socket : Int)
  | epoll_ctl_add (worker_idx : Nat) (client_socket : Int)
  | set_nonblocking (client_socket : Int)
  | usleep (usec : Int)
  deriving DecidableEq, Repr

/-- What `recv` gave: the bytes it stored (their number is the return value,
0 at end of stream), or -1 with `errno`. -/
inductive Recv where
  | data (bytes : List Byte)
  | fail (errno : Int)
  deriving DecidableEq

def Recv.bytes_received : Recv → Int
  | .data bytes => bytes.length
  | .fail _ => -1

def Recv.errno : Recv → Int
  | .data _ => 0
  | .fail e => e

/-- The array `buffer` after `buffer[bytes_received] = 0` (line 202). -/
def Recv.buffer : Recv → List Byte
  | .data bytes => bytes ++ [NUL]
  | .fail _ => [NUL]

/-! ## worker_function (lines 166-238) -/

/-- `err_response[i]`; `none` outside the array. -/
def err_response_at (i : Int) : Option String :=
  if 0 ≤ i then err_response[i.toNat]? else none

/-- Lines 214-232: the response for a complete request and the new fault
state. -/
def worker_function_response (g : Globals) (l : WorkerLocal) :
    Option (Globals × WorkerLocal × String) :=
  let response := ok_response
  if g.send_err_cycle ≠ 0 then
    (int_incr l.resp_cnt).bind fun resp_cnt =>
    if resp_cnt ≥ g.send_err_cycle then
      let resp_cnt := 0
      let err_idx := Int.tmod g.err_index_g HTTP_ERROR_RESP_NUM
      (int_incr g.err_index_g).bind fun err_index_g =>
      let err_index_g := if err_index_g ≥ HTTP_ERROR_RESP_NUM then 0 else err_index_g
      (err_response_at err_idx).bind fun response =>
      some ({ g with err_index_g := err_index_g },
            { resp_cnt := resp_cnt, err_idx := err_idx + 1 }, response)
    else
      some (g, { l with resp_cnt := resp_cnt }, response)
  else
    some (g, l, response)

/-- Lines 182-234: the body of the `for` loop, for one ready socket. -/
def worker_function_event (thread_id : Nat) (client_socket : Int) (r : Recv)
    (g : Globals) (l : WorkerLocal) : Option (Globals × WorkerLocal × List Effect) :=
  if r.bytes_received < 0 ∧ (r.errno = EAGAIN ∨ r.errno = EWOULDBLOCK) then
    some (g, l, [])
  else if r.bytes_received ≤ 0 then
    some ({ g with active_connections := atomic_fetch_sub g.active_connections 1 }, l,
          [Effect.epoll_ctl_del thread_id client_socket, Effect.close client_socket])
  else if (strstr r.buffer (CRLFCRLF ++ [NUL])).isSome then
    let g := { g with request_count := atomic_fetch_add g.request_count 1 }
    let slept := if g.delay ≠ 0 then [Effect.usleep (g.delay * 1000)] else []
    (worker_function_response g l).bind fun (g, l, response) =>
    some (g, l, slept ++ [Effect.send client_socket response])
  else
    some (g, l, [])

/-- The whole process: the globals and the locals of the four workers. -/
structure Sys where
  g : Globals
  l : Fin MAX_WORKERS → WorkerLocal

/-- One ready socket on one worker. -/
structure Event where
  worker : Fin MAX_WORKERS
  client_socket : Int
  recv : Recv

/-- Worker `e.worker` handles one event. -/
def Sys.step (s : Sys) (e : Event) : Option (Sys × List Effect) :=
  (worker_function_event e.worker.val e.client_socket e.recv s.g (s.l e.worker)).map
    fun (g, l, fx) => ({ g := g, l := Function.update s.l e.worker l }, fx)

/-- The events handled one after another; the effects of each, in order. -/
def Sys.run (s : Sys) : List Event → Option (Sys × List (List Effect))
  | [] => some (s, [])
  | e :: es =>
    (s.step e).bind fun (s1, fx) =>
    (Sys.run s1 es).map fun (s2, tr) => (s2, fx :: tr)

/-- State when the workers start: everything zero but the configuration. -/
def Sys.init (delay send_err_cycle : Int) : Sys where
  g := { next_worker := 0, request_count := 0, active_connections := 0, debug_mode := 0,
         delay := delay, send_err_cycle := send_err_cycle, err_index_g := 0 }
  l := fun _ => { resp_cnt := 0, err_idx := 0 }

/-- The responses sent by a list of effects. -/
def sent : List Effect → List String
  | [] => []
  | Effect.send _ r :: fx => r :: sent fx
  | _ :: fx => sent fx

/-! ## accept_client (lines 241-268) -/

/-- One call of `accept_client`; `client_socket` and `errno` are what
`accept` gave. `none` stands for reading outside `workers`. -/
def accept_client (client_socket errno : Int) (g : Globals) : Option (Globals × List Effect) :=
  if client_socket < 0 then
    if errno = EAGAIN ∨ errno = EWOULDBLOCK then some (g, [Effect.usleep 2000])
    else some (g, [])
  else
    let worker_idx := g.next_worker
    (int_incr g.next_worker).bind fun n =>
    let next_worker := Int.tmod n MAX_WORKERS
    if 0 ≤ worker_idx ∧ worker_idx < MAX_WORKERS then
      some ({ g with next_worker := next_worker,
                     active_connections := atomic_fetch_add g.active_connections 1 },
            [Effect.set_nonblocking client_socket,
             Effect.epoll_ctl_add worker_idx.toNat client_socket])
    else none

/-- The acceptor loop of `main` (lines 372-374) over what `accept` gives. -/
def accept_loop (g : Globals) : List (Int × Int) → Option (Globals × List (List Effect))
  | [] => some (g, [])
  | (client_socket, errno) :: rest =>
    (accept_client client_socket errno g).bind fun (g1, fx) =>
    (accept_loop g1 rest).map fun (g2, tr) => (g2, fx :: tr)

/-! ## Observations and invariants used by the statements -/

/-- The event is a read that holds a complete request: lines 186-211 lead to
line 212. -/
def Event.isRequest (e : Event) : Bool :=
  decide (0 < e.recv.bytes_received) && (strstr e.recv.buffer (CRLFCRLF ++ [NUL])).isSome

/-- All responses sent during a run, in order. -/
def responses : List (List Effect) → List String
  | [] => []
  | fx :: tr => sent fx ++ responses tr

/-- The responses of a run that are entries of `err_response`. -/
def injected (tr : List (List Effect)) : List String :=
  (responses tr).filter (fun r => decide (r ∈ err_response))

/-- Number of complete requests among `evs` that worker `w` handles. -/
def requestsOn (w : Fin MAX_WORKERS) (evs : List Event) : Nat :=
  evs.countP (fun e => e.isRequest && decide (e.worker = w))

/-- The state of the fault injector is in range for cycle length `c`. -/
structure Inv (c : Int) (s : Sys) : Prop where
  cycle : s.g.send_err_cycle = c
  idx_lo : 0 ≤ s.g.err_index_g
  idx_hi : s.g.err_index_g < HTTP_ERROR_RESP_NUM
  cnt_lo : ∀ w, 0 ≤ (s.l w).resp_cnt
  cnt_hi : ∀ w, (s.l w).resp_cnt < c
  eidx_lo : ∀ w, 0 ≤ (s.l w).err_idx
  eidx_hi : ∀ w, (s.l w).err_idx ≤ HTTP_ERROR_RESP_NUM

/-- The connections registered by a list of effects: (worker, socket). -/
def registered : List Effect → List (Nat × Int)
  | [] => []
  | Effect.epoll_ctl_add w fd :: fx => (w, fd) :: registered fx
  | _ :: fx => registered fx

/-- All registrations of an acceptor run, in order. -/
def registrations : List (List Effect) → List (Nat × Int)
  | [] => []
  | fx :: tr => registered fx ++ registrations tr

/-! ## Floating point (IEEE 754 binary32 and binary64, round to nearest even) -/

/-- A value of a binary floating-point format. The sign of zero is not kept:
the program only compares and divides. -/
inductive FloatVal where
  | finite (q : ℚ)
  | inf (negative : Bool)
  | nan
  deriving DecidableEq

/-- Nearest integer, ties to the even one. -/
def rne (s : ℚ) : Int :=
  let f := ⌊s⌋
  if s - f < 1 / 2 then f
  else if 1 / 2 < s - f then f + 1
  else if f % 2 = 0 then f else f + 1

/-- Round `v` to the nearest value of the binary format with `prec` bits of
significand and exponents `emin .. emax`, ties to even; past the largest
finite value the result is an infinity. -/
def roundNE (prec : Nat) (emin emax : Int) (v : ℚ) : FloatVal :=
  if v = 0 then .finite 0
  else
    let e := Int.log 2 |v|
    let t := max e emin - ((prec : Int) - 1)
    let w := (rne (|v| / 2 ^ t) : ℚ) * 2 ^ t
    if (2 : ℚ) ^ (emax + 1) ≤ w then .inf (decide (v < 0))
    else .finite (if v < 0 then -w else w)

/-- The `double` nearest to `v`. -/
def to_double (v : ℚ) : FloatVal := roundNE 53 (-1022) 1023 v

/-- The `float` nearest to `v`. -/
def to_float (v : ℚ) : FloatVal := roundNE 24 (-126) 127 v

/-- Conversion of a `double` to `float` (the assignment `errate = atof(p)`). -/
def FloatVal.to_float : FloatVal → FloatVal
  | .finite q => HttpServer.to_float q
  | .inf s => .inf s
  | .nan => .nan

/-- `x > y` on floats, `y` finite. -/
def FloatVal.gt (x : FloatVal) (y : ℚ) : Bool :=
  match x with
  | .finite q => decide (y < q)
  | .inf s => !s
  | .nan => false

/-- `x < y` on floats, `y` finite. -/
def FloatVal.lt (x : FloatVal) (y : ℚ) : Bool :=
  match x with
  | .finite q => decide (q < y)
  | .inf s => s
  | .nan => false

/-- `x != y` on floats, `y` finite. -/
def FloatVal.ne (x : FloatVal) (y : ℚ) : Bool :=
  match x with
  | .finite q => decide (q ≠ y)
  | .inf _ => true
  | .nan => true

/-- `1 / x` in `float` arithmetic (the `int` 1 is converted to `1.0f`). -/
def float_one_div : FloatVal → FloatVal
  | .finite q => if q = 0 then .inf false else to_float (1 / q)
  | .inf _ => .finite 0
  | .nan => .nan

/-- Conversion of a `float` to `int`: the fraction is dropped; undefined
(`none`) when the result does not fit, for infinities and for NaN. -/
def float_to_int : FloatVal → Option Int
  | .finite q =>
    let z := if 0 ≤ q then ⌊q⌋ else ⌈q⌉
    if INT_MIN ≤ z ∧ z ≤ INT_MAX then some z else none
  | .inf _ => none
  | .nan => none

/-! ## main: the arguments after the port (lines 284-322) -/

/-- The globals set from the command line. -/
structure Config where
  is_bg : Int
  delay : Int
  errate : FloatVal
  send_err_cycle : Int
  deriving DecidableEq

/-- The globals before `main` runs (lines 98-101). -/
def Config.initial : Config :=
  { is_bg := 0, delay := 0, errate := .finite 0, send_err_cycle := 0 }

/-- Lines 307-317; `d` is what `atof(p)` returned. -/
def main_errate (d : FloatVal) (cf : Config) : Option Config :=
  let errate := d.to_float
  let errate := if errate.gt 1 then .finite 1 else errate
  let errate := if errate.lt 0 then .finite 0 else errate
  if errate.ne 0 then
    (float_to_int (float_one_div errate)).map fun send_err_cycle =>
      let send_err_cycle := if send_err_cycle < 1 then 1 else send_err_cycle
      { cf with errate := errate, send_err_cycle := send_err_cycle }
  else
    some { cf with errate := errate }

/-- Lines 294-298; `n` is what `atoi(p)` returned. -/
def main_delay (n : Int) (cf : Config) : Config :=
  let delay := n
  let delay := if delay > 5000 then 5000 else delay
  let delay := if delay < 0 then 0 else delay
  { cf with delay := delay }

/-- `strchr(s, c)` followed by `p++`: the text after the first `c`. -/
def after_char (c : Char) : List Char → Option (List Char)
  | [] => none
  | d :: rest => if d = c then some rest else after_char c rest

/-- Lines 286-320: the body of the loop over `argv[2..]`, for one argument.
`atoi` and `atof` are the C library's. -/
def main_arg (atoi : List Char → Int) (atof : List Char → FloatVal) (arg : List Char)
    (cf : Config) : Option Config :=
  if (find_sub "bg".toList arg).isSome || (find_sub "back".toList arg).isSome then
    some { cf with is_bg := 1 }
  else if (find_sub "delay=".toList arg).isSome then
    match after_char '=' arg with
    | some p => some (main_delay (atoi p) cf)
    | none => some cf
  else if (find_sub "errate=".toList arg).isSome then
    match after_char '=' arg with
    | some p => main_errate (atof p) cf
    | none => some cf
  else
    some cf

/-- Lines 284-322: the loop over the arguments after the port. -/
def main_args (atoi : List Char → Int) (atof : List Char → FloatVal) :
    List String → Config → Option Config
  | [], cf => some cf
  | arg :: rest, cf => (main_arg atoi atof arg.toList cf).bind (main_args atoi atof rest)

/-- The cycle length `main` derives from the text of an error rate whose
decimal value is `r`: `atof` gives the nearest `double`. -/
def cycle_of_rate (r : ℚ) : Option Int :=
  (main_errate (to_double r) Config.initial).map (fun cf => cf.send_err_cycle)

/-! ## Concrete inputs used below -/

/-- The bytes of `GET / HTTP/1.1`, a `Host` header and the blank line. -/
def get_request : List Byte :=
  [71, 69, 84, 32, 47, 32, 72, 84, 84, 80, 47, 49, 46, 49, 13, 10,
   72, 111, 115, 116, 58, 32, 97, 13, 10, 13, 10]

/-- Three complete requests on worker 1. -/
def three_requests : List Event :=
  [⟨1, 7, .data get_request⟩, ⟨1, 7, .data get_request⟩, ⟨1, 9, .data [CR, LF, CR, LF]⟩]

/-- Four complete requests on one connection of worker 0. -/
def four_requests : List Event :=
  [⟨0, 7, .data get_request⟩, ⟨0, 7, .data get_request⟩, ⟨0, 7, .data get_request⟩,
   ⟨0, 7, .data get_request⟩]

/-- Four complete requests, one on each worker. -/
def one_per_worker : List Event :=
  [⟨0, 5, .data get_request⟩, ⟨1, 6, .data get_request⟩,
   ⟨2, 7, .data get_request⟩, ⟨3, 8, .data get_request⟩]

/-- The status code in the status line of a response. -/
def statusOf (r : String) : String := String.mk ((r.toList.drop 9).take 3)

/-- The (socket, response) pairs of the `send` calls among some effects. -/
def sends : List Effect → List (Int × String)
  | [] => []
  | Effect.send fd r :: fx => (fd, r) :: sends fx
  | _ :: fx => sends fx

/-- A read of five bytes: a NUL, then CR LF CR LF. -/
def nul_then_blank_line : List Byte := [NUL, CR, LF, CR, LF]

/-- The sockets of the successful accepts among what `accept` gave. -/
def accepted (rs : List (Int × Int)) : List Int :=
  (rs.filter (fun r => decide (0 ≤ r.1))).map (fun r => r.1)

/-- What `accept` gave in seven calls: five connections, one would-block
(`EAGAIN`) and one failure (`EINTR`). -/
def seven_accepts : List (Int × Int) :=
  [(5, 0), (-1, 11), (6, 0), (7, 0), (-1, 4), (8, 0), (9, 0)]

/-- An `atof` that knows the two texts used below. -/
def atof_sample (s : List Char) : FloatVal :=
  if s = "0.5".toList then .finite (1 / 2) else .finite 0

/-- An `atoi` that returns 0. -/
def atoi_sample (_ : List Char) : Int := 0

/-- The three ways an event can go from a state in range. -/
inductive StepCase (c : Int) (s : Sys) (e : Event) (s1 : Sys) (fx : List Effect) : Prop where
  | other (hreq : e.isRequest = false) (hsent : sent fx = []) (hl : s1.l = s.l)
      (hidx : s1.g.err_index_g = s.g.err_index_g)
      (hcount : s1.g.request_count = s.g.request_count)
  | ok (hreq : e.isRequest = true) (hlt : (s.l e.worker).resp_cnt + 1 < c)
      (hsent : sent fx = [ok_response])
      (hl : s1.l = Function.update s.l e.worker
        { s.l e.worker with resp_cnt := (s.l e.worker).resp_cnt + 1 })
      (hidx : s1.g.err_index_g = s.g.err_index_g)
      (hcount : s1.g.request_count = atomic_fetch_add s.g.request_count 1)
  | err (hreq : e.isRequest = true) (hge : (s.l e.worker).resp_cnt + 1 = c) (r : String)
      (hr : err_response[s.g.err_index_g.toNat]? = some r) (hsent : sent fx = [r])
      (hl : s1.l = Function.update s.l e.worker
        { resp_cnt := 0, err_idx := s.g.err_index_g + 1 })
      (hidx : s1.g.err_index_g = ((s.g.err_index_g.toNat + 1) % HTTP_ERROR_RESP_NUM : Nat))
      (hcount : s1.g.request_count = atomic_fetch_add s.g.request_count 1)

/-! ## Lemmas: C strings -/

theorem find_sub_isSome_iff {α : Type} [BEq α] [LawfulBEq α] (needle hay : List α) :
    (find_sub needle hay).isSome = true ↔ needle <:+: hay := by
  induction hay with
  | nil =>
    cases needle with
    | nil => simp [find_sub]
    | cons a t => simp [find_sub, List.isPrefixOf]
  | cons c rest ih =>
    unfold find_sub
    by_cases hp : needle.isPrefixOf (c :: rest) = true
    · simp only [hp, if_true, Option.isSome_some, true_iff]
      exact (List.isPrefixOf_iff_prefix.mp hp).isInfix
    · simp only [hp, Bool.false_eq_true, if_false, Option.isSome_map', ih]
      rw [List.infix_cons_iff]
      constructor
      · exact fun h => Or.inr h
      · rintro (h | h)
        · exact absurd (List.isPrefixOf_iff_prefix.mpr h) hp
        · exact h

theorem cstr_literal : cstr (CRLFCRLF ++ [NUL]) = CRLFCRLF := by decide

theorem cstr_buffer (bytes : List Byte) :
    cstr (bytes ++ [NUL]) = bytes.takeWhile (fun b => b != NUL) := by
  induction bytes with
  | nil => decide
  | cons b t ih =>
    unfold cstr at ih ⊢
    by_cases hb : (b != NUL) = true
    · simp [List.takeWhile_cons, hb, ih]
    · simp [List.takeWhile_cons, hb]

/-- What line 211 tests, in words: the bytes before the first NUL hold a
blank line. -/
theorem strstr_buffer_iff (bytes : List Byte) :
    (strstr (bytes ++ [NUL]) (CRLFCRLF ++ [NUL])).isSome = true ↔
      CRLFCRLF <:+: bytes.takeWhile (fun b => b != NUL) := by
  unfold strstr
  rw [find_sub_isSome_iff, cstr_literal, cstr_buffer]

theorem takeWhile_infix_self (bytes : List Byte) (p : Byte → Bool) :
    bytes.takeWhile p <:+: bytes := (List.takeWhile_prefix p).isInfix

/-- Without a NUL among them, all bytes of a read count. -/
theorem takeWhile_no_nul (bytes : List Byte) (h : NUL ∉ bytes) :
    bytes.takeWhile (fun b => b != NUL) = bytes := by
  rw [List.takeWhile_eq_self_iff]
  intro b hb
  simp only [bne_iff_ne, ne_eq]
  rintro rfl
  exact h hb

theorem err_response_at_nat (k : Nat) : err_response_at (k : Int) = err_response[k]? := by
  simp [err_response_at]

theorem response_disabled (g : Globals) (l : WorkerLocal) (h : g.send_err_cycle = 0) :
    worker_function_response g l = some (g, l, ok_response) := by
  simp [worker_function_response, h]

theorem response_ok (g : Globals) (l : WorkerLocal)
    (h0 : g.send_err_cycle ≠ 0) (hmax : g.send_err_cycle ≤ INT_MAX)
    (h : l.resp_cnt + 1 < g.send_err_cycle) :
    worker_function_response g l
      = some (g, { l with resp_cnt := l.resp_cnt + 1 }, ok_response) := by
  have h1 : l.resp_cnt < INT_MAX := by omega
  have h2 : ¬ (l.resp_cnt + 1 ≥ g.send_err_cycle) := by omega
  simp [worker_function_response, h0, int_incr, h1, h2]

theorem response_err (g : Globals) (l : WorkerLocal) (k : Nat)
    (h0 : g.send_err_cycle ≠ 0) (hmax : l.resp_cnt < INT_MAX)
    (h : g.send_err_cycle ≤ l.resp_cnt + 1)
    (hk : g.err_index_g = (k : Int)) (hk6 : k < HTTP_ERROR_RESP_NUM) :
    ∃ r, err_response[k]? = some r ∧
    worker_function_response g l
      = some ({ g with err_index_g := ((k + 1) % HTTP_ERROR_RESP_NUM : Nat) },
              { resp_cnt := 0, err_idx := (k : Int) + 1 }, r) := by
  simp only [HTTP_ERROR_RESP_NUM] at hk6 ⊢
  have hlen : k < err_response.length := by simpa [err_response] using hk6
  refine ⟨err_response[k], by simp [hlen], ?_⟩
  have hkm : Int.tmod (k : Int) ((6 : Nat) : Int) = (k : Int) := by
    rw [Int.tmod_eq_emod (by omega) (by omega)]
    omega
  have hk2 : (k : Int) < INT_MAX := by simp only [INT_MAX]; omega
  have hnew : (if (k : Int) + 1 ≥ ((6 : Nat) : Int) then (0 : Int) else (k : Int) + 1)
      = (((k + 1) % 6 : Nat) : Int) := by
    split_ifs with h6 <;> omega
  simp only [worker_function_response, h0, int_incr, hmax, hk, hkm, hk2, ne_eq, not_false_eq_true,
    if_true, Option.bind_eq_bind, Option.some_bind, ge_iff_le, h, hnew, err_response_at_nat,
    List.getElem?_eq_getElem hlen]

theorem sent_slept (d : Int) (sock : Int) (r : String) :
    sent ((if d ≠ 0 then [Effect.usleep (d * 1000)] else []) ++ [Effect.send sock r]) = [r] := by
  split_ifs <;> simp [sent]

/-- An event that is not a complete request sends nothing and leaves the
fault injector and `request_count` alone. -/
theorem event_other (tid : Nat) (sock : Int) (r : Recv) (g : Globals) (l : WorkerLocal)
    (h : (decide (0 < r.bytes_received) && (strstr r.buffer (CRLFCRLF ++ [NUL])).isSome) = false) :
    ∃ g1 fx, worker_function_event tid sock r g l = some (g1, l, fx) ∧ sent fx = [] ∧
      g1.send_err_cycle = g.send_err_cycle ∧ g1.err_index_g = g.err_index_g ∧
      g1.request_count = g.request_count ∧ g1.next_worker = g.next_worker ∧
      g1.delay = g.delay ∧ g1.debug_mode = g.debug_mode := by
  unfold worker_function_event
  by_cases h1 : r.bytes_received < 0 ∧ (r.errno = EAGAIN ∨ r.errno = EWOULDBLOCK)
  · exact ⟨g, [], by simp [h1, sent]⟩
  · by_cases h2 : r.bytes_received ≤ 0
    · exact ⟨{ g with active_connections := atomic_fetch_sub g.active_connections 1 },
        [Effect.epoll_ctl_del tid sock, Effect.close sock],
        by simp only [h1, h2, if_true, if_false], by simp [sent], rfl, rfl, rfl, rfl, rfl, rfl⟩
    · have h3 : (strstr r.buffer (CRLFCRLF ++ [NUL])).isSome = false := by
        have : 0 < r.bytes_received := by omega
        simpa [this] using h
      exact ⟨g, [], by simp [h1, h2, h3, sent]⟩

/-- A complete request: `request_count` is bumped, then lines 214-233 run. -/
theorem event_request (tid : Nat) (sock : Int) (r : Recv) (g : Globals) (l : WorkerLocal)
    (h : (decide (0 < r.bytes_received) && (strstr r.buffer (CRLFCRLF ++ [NUL])).isSome) = true) :
    worker_function_event tid sock r g l =
      (worker_function_response
          { g with request_count := atomic_fetch_add g.request_count 1 } l).bind
        fun (g1, l1, response) =>
          some (g1, l1, (if g.delay ≠ 0 then [Effect.usleep (g.delay * 1000)] else []) ++
            [Effect.send sock response]) := by
  simp only [Bool.and_eq_true, decide_eq_true_eq] at h
  have h1 : ¬ (r.bytes_received < 0 ∧ (r.errno = EAGAIN ∨ r.errno = EWOULDBLOCK)) := by omega
  have h2 : ¬ r.bytes_received ≤ 0 := by omega
  simp only [worker_function_event, h1, h2, if_false, h.2, if_true]

theorem step_other (s : Sys) (e : Event) (h : e.isRequest = false) :
    ∃ s1 fx, s.step e = some (s1, fx) ∧ sent fx = [] ∧ s1.l = s.l ∧
      s1.g.send_err_cycle = s.g.send_err_cycle ∧ s1.g.err_index_g = s.g.err_index_g ∧
      s1.g.request_count = s.g.request_count := by
  obtain ⟨g1, fx, h1, h2, h3, h4, h5, _⟩ :=
    event_other e.worker.val e.client_socket e.recv s.g (s.l e.worker) h
  refine ⟨⟨g1, s.l⟩, fx, ?_, h2, rfl, h3, h4, h5⟩
  simp [Sys.step, h1]

theorem step_ok (c : Int) (s : Sys) (e : Event) (hinv : Inv c s) (hc : c ≤ INT_MAX)
    (h : e.isRequest = true) (hlt : (s.l e.worker).resp_cnt + 1 < c) :
    ∃ fx, s.step e = some
        (⟨{ s.g with request_count := atomic_fetch_add s.g.request_count 1 },
          Function.update s.l e.worker { s.l e.worker with resp_cnt := (s.l e.worker).resp_cnt + 1 }⟩,
         fx) ∧ sent fx = [ok_response] := by
  have hl := hinv.cnt_lo e.worker
  have h0 : s.g.send_err_cycle ≠ 0 := by rw [hinv.cycle]; omega
  refine ⟨_, ?_, sent_slept s.g.delay e.client_socket ok_response⟩
  have hresp := response_ok { s.g with request_count := atomic_fetch_add s.g.request_count 1 }
    (s.l e.worker) h0 (by rw [hinv.cycle]; exact hc) (by rw [hinv.cycle]; exact hlt)
  rw [Sys.step, event_request _ _ _ _ _ h, hresp]
  rfl

theorem step_err (c : Int) (s : Sys) (e : Event) (hinv : Inv c s) (hc : c ≤ INT_MAX)
    (h : e.isRequest = true) (hge : c ≤ (s.l e.worker).resp_cnt + 1) :
    ∃ r fx, err_response[s.g.err_index_g.toNat]? = some r ∧ s.step e = some
        (⟨{ s.g with request_count := atomic_fetch_add s.g.request_count 1,
                     err_index_g := ((s.g.err_index_g.toNat + 1) % HTTP_ERROR_RESP_NUM : Nat) },
          Function.update s.l e.worker { resp_cnt := 0, err_idx := s.g.err_index_g + 1 }⟩,
         fx) ∧ sent fx = [r] := by
  have hl := hinv.cnt_lo e.worker
  have hh := hinv.cnt_hi e.worker
  have hk0 := hinv.idx_lo
  have hk6 := hinv.idx_hi
  have h0 : s.g.send_err_cycle ≠ 0 := by rw [hinv.cycle]; omega
  have hk : s.g.err_index_g = ((s.g.err_index_g.toNat : Nat) : Int) := by omega
  obtain ⟨r, hr, hresp⟩ := response_err
    { s.g with request_count := atomic_fetch_add s.g.request_count 1 } (s.l e.worker)
    s.g.err_index_g.toNat h0 (by omega) (by rw [hinv.cycle]; exact hge) hk (by omega)
  refine ⟨r, _, hr, ?_, sent_slept s.g.delay e.client_socket r⟩
  rw [Sys.step, event_request _ _ _ _ _ h, hresp]
  simp only [Option.bind_eq_bind, Option.some_bind, Option.map_some', ← hk]

/-! ## Lemmas: one step keeps the invariant -/

theorem ok_not_injected : ok_response ∉ err_response := by decide

theorem init_inv (delay c : Int) (hc : 1 ≤ c) : Inv c (Sys.init delay c) where
  cycle := rfl
  idx_lo := by simp [Sys.init]
  idx_hi := by simp [Sys.init]
  cnt_lo := fun _ => by simp [Sys.init]
  cnt_hi := fun _ => by simp only [Sys.init]; omega
  eidx_lo := fun _ => by simp [Sys.init]
  eidx_hi := fun _ => by simp [Sys.init]

theorem step_cases (c : Int) (s : Sys) (e : Event) (hinv : Inv c s) (hc1 : 1 ≤ c)
    (hc : c ≤ INT_MAX) :
    ∃ s1 fx, s.step e = some (s1, fx) ∧ Inv c s1 ∧ StepCase c s e s1 fx := by
  have hk0 := hinv.idx_lo
  have hk6 := hinv.idx_hi
  have hH : ((HTTP_ERROR_RESP_NUM : Nat) : Int) = 6 := rfl
  by_cases hreq : e.isRequest = true
  · by_cases hlt : (s.l e.worker).resp_cnt + 1 < c
    · obtain ⟨fx, hstep, hsent⟩ := step_ok c s e hinv hc hreq hlt
      refine ⟨_, fx, hstep, ?_, StepCase.ok hreq hlt hsent rfl rfl rfl⟩
      refine ⟨hinv.cycle, hinv.idx_lo, hinv.idx_hi, ?_, ?_, ?_, ?_⟩ <;> intro w <;>
        by_cases hw : w = e.worker
      · subst hw; simp only [Function.update_same]; have := hinv.cnt_lo e.worker; omega
      · simp only [Function.update_noteq hw]; exact hinv.cnt_lo w
      · subst hw; simp only [Function.update_same]; exact hlt
      · simp only [Function.update_noteq hw]; exact hinv.cnt_hi w
      · subst hw; simp only [Function.update_same]; exact hinv.eidx_lo e.worker
      · simp only [Function.update_noteq hw]; exact hinv.eidx_lo w
      · subst hw; simp only [Function.update_same]; exact hinv.eidx_hi e.worker
      · simp only [Function.update_noteq hw]; exact hinv.eidx_hi w
    · have hge : c ≤ (s.l e.worker).resp_cnt + 1 := by omega
      have heq : (s.l e.worker).resp_cnt + 1 = c := by have := hinv.cnt_hi e.worker; omega
      obtain ⟨r, fx, hr, hstep, hsent⟩ := step_err c s e hinv hc hreq hge
      refine ⟨_, fx, hstep, ?_, StepCase.err hreq heq r hr hsent rfl rfl rfl⟩
      refine ⟨hinv.cycle, ?_, ?_, ?_, ?_, ?_, ?_⟩
      · simp only; omega
      · simp only [HTTP_ERROR_RESP_NUM]; omega
      all_goals intro w; by_cases hw : w = e.worker
      · subst hw; simp only [Function.update_same]; omega
      · simp only [Function.update_noteq hw]; exact hinv.cnt_lo w
      · subst hw; simp only [Function.update_same]; omega
      · simp only [Function.update_noteq hw]; exact hinv.cnt_hi w
      · subst hw; simp only [Function.update_same]; omega
      · simp only [Function.update_noteq hw]; exact hinv.eidx_lo w
      · subst hw; simp only [Function.update_same, hH]; omega
      · simp only [Function.update_noteq hw]; exact hinv.eidx_hi w
  · have hreq : e.isRequest = false := by simpa using hreq
    obtain ⟨s1, fx, hstep, hsent, hl, hcyc, hidx, hcount⟩ := step_other s e hreq
    refine ⟨s1, fx, hstep, ?_, StepCase.other hreq hsent hl hidx hcount⟩
    refine ⟨by rw [hcyc]; exact hinv.cycle, by rw [hidx]; exact hinv.idx_lo,
      by rw [hidx]; exact hinv.idx_hi, ?_, ?_, ?_, ?_⟩ <;> intro w <;> rw [hl]
    · exact hinv.cnt_lo w
    · exact hinv.cnt_hi w
    · exact hinv.eidx_lo w
    · exact hinv.eidx_hi w

/-! ## Lemmas: runs -/

theorem run_cons (s : Sys) (e : Event) (es : List Event) (s1 s2 : Sys) (fx : List Effect)
    (tr : List (List Effect)) (h1 : s.step e = some (s1, fx)) (h2 : s1.run es = some (s2, tr)) :
    s.run (e :: es) = some (s2, fx :: tr) := by
  simp [Sys.run, h1, h2]

/-- From a state in range every run goes through: no undefined behaviour,
and the state stays in range. -/
theorem run_inv (c : Int) (hc1 : 1 ≤ c) (hc : c ≤ INT_MAX) (evs : List Event) :
    ∀ s, Inv c s → ∃ s1 tr, s.run evs = some (s1, tr) ∧ Inv c s1 ∧ tr.length = evs.length := by
  induction evs with
  | nil => exact fun s h => ⟨s, [], rfl, h, rfl⟩
  | cons e es ih =>
    intro s hinv
    obtain ⟨s1, fx, hstep, hinv1, _⟩ := step_cases c s e hinv hc1 hc
    obtain ⟨s2, tr, hrun, hinv2, hlen⟩ := ih s1 hinv1
    exact ⟨s2, fx :: tr, run_cons s e es s1 s2 fx tr hstep hrun, hinv2, by simp [hlen]⟩

theorem injected_cons (fx : List Effect) (tr : List (List Effect)) :
    injected (fx :: tr) = (sent fx).filter (fun r => decide (r ∈ err_response)) ++ injected tr := by
  simp [injected, responses]

theorem injected_cons_nil (fx : List Effect) (tr : List (List Effect)) (h : sent fx = []) :
    injected (fx :: tr) = injected tr := by
  simp [injected_cons, h]

theorem injected_cons_ok (fx : List Effect) (tr : List (List Effect))
    (h : sent fx = [ok_response]) : injected (fx :: tr) = injected tr := by
  simp [injected_cons, h, ok_not_injected]

theorem injected_cons_err (fx : List Effect) (tr : List (List Effect)) (r : String) (k : Nat)
    (hr : err_response[k]? = some r) (h : sent fx = [r]) :
    injected (fx :: tr) = r :: injected tr := by
  have hmem : r ∈ err_response := List.getElem?_mem hr
  simp [injected_cons, h, hmem]

theorem run_cons_inv (s : Sys) (e : Event) (es : List Event) (s1 s2 : Sys) (fx : List Effect)
    (tr1 : List (List Effect)) (h1 : s.step e = some (s1, fx))
    (h2 : s.run (e :: es) = some (s2, tr1)) :
    ∃ tr, s1.run es = some (s2, tr) ∧ tr1 = fx :: tr := by
  simp only [Sys.run, h1, Option.bind_eq_bind, Option.some_bind, Option.map_eq_some',
    Prod.mk.injEq, Prod.exists] at h2
  obtain ⟨a, tr, hrun, rfl, rfl⟩ := h2
  exact ⟨tr, hrun, rfl⟩

theorem requestsOn_cons (w : Fin MAX_WORKERS) (e : Event) (es : List Event) :
    requestsOn w (e :: es)
      = requestsOn w es + (if e.isRequest = true ∧ e.worker = w then 1 else 0) := by
  simp only [requestsOn, List.countP_cons, Bool.and_eq_true, decide_eq_true_eq]

/-! ## Lemmas: how many errors a run injects -/

/-- Each worker counts on its own: from a state in range, a run injects as
many errors as the workers' counters wrap. -/
theorem run_count (c : Int) (hc1 : 1 ≤ c) (hc : c ≤ INT_MAX) (evs : List Event) :
    ∀ s s2 tr, Inv c s → s.run evs = some (s2, tr) →
      (injected tr).length
        = ∑ w : Fin MAX_WORKERS, ((s.l w).resp_cnt.toNat + requestsOn w evs) / c.toNat := by
  have hC : 0 < c.toNat := by omega
  induction evs with
  | nil =>
    intro s s2 tr hinv hrun
    simp only [Sys.run, Option.some.injEq, Prod.mk.injEq] at hrun
    obtain ⟨-, rfl⟩ := hrun
    symm
    simp only [injected, responses, List.filter_nil, List.length_nil, requestsOn,
      List.countP_nil, add_zero]
    apply Finset.sum_eq_zero
    intro w _
    apply Nat.div_eq_of_lt
    have h1 := hinv.cnt_lo w
    have h2 := hinv.cnt_hi w
    omega
  | cons e es ih =>
    intro s s2 tr1 hinv hrun
    obtain ⟨s1, fx, hstep, hinv1, hcase⟩ := step_cases c s e hinv hc1 hc
    obtain ⟨tr, hrun1, rfl⟩ := run_cons_inv s e es s1 s2 fx tr1 hstep hrun
    have ih1 := ih s1 s2 tr hinv1 hrun1
    cases hcase with
    | other hreq hsent hl hidx hcount =>
      rw [injected_cons_nil fx tr hsent, ih1, hl]
      refine Finset.sum_congr rfl fun w _ => ?_
      simp [requestsOn_cons, hreq]
    | ok hreq hlt hsent hl hidx hcount =>
      rw [injected_cons_ok fx tr hsent, ih1, hl]
      refine Finset.sum_congr rfl fun w _ => ?_
      have h1 := hinv.cnt_lo e.worker
      by_cases hw : w = e.worker
      · subst hw
        simp only [Function.update_same, requestsOn_cons, hreq, and_self, if_true]
        congr 1
        omega
      · have hw2 : ¬ e.worker = w := fun h => hw h.symm
        simp only [Function.update_noteq hw, requestsOn_cons, hw2, and_false, if_false, add_zero]
    | err hreq hge r hr hsent hl hidx hcount =>
      rw [injected_cons_err fx tr r _ hr hsent, List.length_cons, ih1, hl]
      have key : ∀ w : Fin MAX_WORKERS,
          ((s.l w).resp_cnt.toNat + requestsOn w (e :: es)) / c.toNat
            = ((Function.update s.l e.worker
                  { resp_cnt := 0, err_idx := s.g.err_index_g + 1 } w).resp_cnt.toNat
                + requestsOn w es) / c.toNat + (if w = e.worker then 1 else 0) := by
        intro w
        have h1 := hinv.cnt_lo e.worker
        by_cases hw : w = e.worker
        · subst hw
          simp only [Function.update_same, requestsOn_cons, hreq, and_self, if_true]
          have : (s.l e.worker).resp_cnt.toNat + (requestsOn e.worker es + 1)
              = requestsOn e.worker es + c.toNat := by omega
          rw [this, Nat.add_div_right _ hC]
          simp
        · have hw2 : ¬ e.worker = w := fun h => hw h.symm
          simp only [Function.update_noteq hw, requestsOn_cons, hw2, and_false, if_false,
            add_zero, hw]
      rw [Finset.sum_congr rfl fun w _ => key w, Finset.sum_add_distrib]
      simp

/-- The workers' shares add up to all complete requests. -/
theorem requestsOn_sum (evs : List Event) :
    ∑ w : Fin MAX_WORKERS, requestsOn w evs = evs.countP (fun e => e.isRequest) := by
  induction evs with
  | nil => simp [requestsOn]
  | cons e es ih =>
    simp only [requestsOn_cons, Finset.sum_add_distrib, ih, List.countP_cons]
    congr 1
    by_cases hreq : e.isRequest = true
    · simp [hreq]
    · simp [hreq]

theorem sum_div_le (c : Nat) (hc : 0 < c) (f : Fin MAX_WORKERS → Nat) :
    ∑ w, f w / c ≤ (∑ w, f w) / c := by
  rw [Nat.le_div_iff_mul_le hc, Finset.sum_mul]
  exact Finset.sum_le_sum fun w _ => Nat.div_mul_le_self (f w) c

theorem div_le_sum_div_add (c : Nat) (hc : 0 < c) (f : Fin MAX_WORKERS → Nat) :
    (∑ w, f w) / c ≤ ∑ w, f w / c + 3 := by
  have h : ∀ w, f w < (f w / c + 1) * c := fun w => by
    have := Nat.lt_succ_iff.mpr (le_refl (f w / c))
    exact (Nat.div_lt_iff_lt_mul hc).mp this
  have h4 : (∑ w, f w) / c < ∑ w, f w / c + 4 := by
    rw [Nat.div_lt_iff_lt_mul hc]
    simp only [Fin.sum_univ_four]
    have a := h 0
    have b := h 1
    have d := h 2
    have e := h 3
    nlinarith
  omega

/-! ## Lemmas: which error, and which request -/

/-- The errors of a run are consecutive entries of the table, starting at
the cursor and wrapping. -/
theorem run_order (c : Int) (hc1 : 1 ≤ c) (hc : c ≤ INT_MAX) (evs : List Event) :
    ∀ s s2 tr, Inv c s → s.run evs = some (s2, tr) →
      ∀ j, j < (injected tr).length →
        (injected tr)[j]? = err_response[(s.g.err_index_g.toNat + j) % HTTP_ERROR_RESP_NUM]? := by
  induction evs with
  | nil =>
    intro s s2 tr hinv hrun j hj
    simp only [Sys.run, Option.some.injEq, Prod.mk.injEq] at hrun
    obtain ⟨-, rfl⟩ := hrun
    simp [injected, responses] at hj
  | cons e es ih =>
    intro s s2 tr1 hinv hrun j hj
    obtain ⟨s1, fx, hstep, hinv1, hcase⟩ := step_cases c s e hinv hc1 hc
    obtain ⟨tr, hrun1, rfl⟩ := run_cons_inv s e es s1 s2 fx tr1 hstep hrun
    have ih1 := ih s1 s2 tr hinv1 hrun1
    cases hcase with
    | other hreq hsent hl hidx hcount =>
      rw [injected_cons_nil fx tr hsent] at hj ⊢
      rw [ih1 j hj, hidx]
    | ok hreq hlt hsent hl hidx hcount =>
      rw [injected_cons_ok fx tr hsent] at hj ⊢
      rw [ih1 j hj, hidx]
    | err hreq hge r hr hsent hl hidx hcount =>
      rw [injected_cons_err fx tr r _ hr hsent] at hj ⊢
      have hk0 := hinv.idx_lo
      have hk6 := hinv.idx_hi
      simp only [HTTP_ERROR_RESP_NUM] at hk6 hidx ⊢
      cases j with
      | zero =>
        have : (s.g.err_index_g.toNat + 0) % 6 = s.g.err_index_g.toNat := by omega
        rw [this, hr]
        exact List.getElem?_cons_zero
      | succ j =>
        have hj1 : j < (injected tr).length := by simpa using hj
        have h := ih1 j hj1
        simp only [HTTP_ERROR_RESP_NUM] at h
        rw [List.getElem?_cons_succ, h, hidx]
        congr 1
        have : (((s.g.err_index_g.toNat + 1) % 6 : Nat) : Int).toNat
            = (s.g.err_index_g.toNat + 1) % 6 := Int.toNat_ofNat _
        rw [this]
        omega

/-- One worker handling only complete requests: where its counter ends up
and which of its responses are errors. -/
theorem run_single (c : Int) (hc1 : 1 ≤ c) (hc : c ≤ INT_MAX) (w : Fin MAX_WORKERS)
    (evs : List Event) :
    ∀ s s2 tr, Inv c s → (∀ e ∈ evs, e.worker = w ∧ e.isRequest = true) →
      s.run evs = some (s2, tr) →
      (s2.l w).resp_cnt = ((s.l w).resp_cnt + evs.length) % c ∧
      ∀ i, i < evs.length → ∃ fx r, tr[i]? = some fx ∧ sent fx = [r] ∧
        (r ∈ err_response ↔ c ∣ (s.l w).resp_cnt + (i : Int) + 1) ∧
        (¬ c ∣ (s.l w).resp_cnt + (i : Int) + 1 → r = ok_response) := by
  induction evs with
  | nil =>
    intro s s2 tr hinv _ hrun
    simp only [Sys.run, Option.some.injEq, Prod.mk.injEq] at hrun
    obtain ⟨rfl, rfl⟩ := hrun
    have h1 := hinv.cnt_lo w
    have h2 := hinv.cnt_hi w
    refine ⟨?_, fun i hi => absurd hi (by simp)⟩
    simp only [List.length_nil, Nat.cast_zero, add_zero]
    exact (Int.emod_eq_of_lt h1 h2).symm
  | cons e es ih =>
    intro s s2 tr1 hinv hev hrun
    obtain ⟨hew, hereq⟩ := hev e (List.mem_cons_self e es)
    have hev1 : ∀ e1 ∈ es, e1.worker = w ∧ e1.isRequest = true :=
      fun e1 h => hev e1 (List.mem_cons_of_mem e h)
    obtain ⟨s1, fx, hstep, hinv1, hcase⟩ := step_cases c s e hinv hc1 hc
    obtain ⟨tr, hrun1, rfl⟩ := run_cons_inv s e es s1 s2 fx tr1 hstep hrun
    obtain ⟨ihend, ihpos⟩ := ih s1 s2 tr hinv1 hev1 hrun1
    have h1 := hinv.cnt_lo w
    have h2 := hinv.cnt_hi w
    subst hew
    cases hcase with
    | other hreq hsent hl hidx hcount => rw [hereq] at hreq; exact absurd hreq (by simp)
    | ok hreq hlt hsent hl hidx hcount =>
      have hr1 : (s1.l e.worker).resp_cnt = (s.l e.worker).resp_cnt + 1 := by
        rw [hl]; simp only [Function.update_same]
      have hnd : ¬ c ∣ (s.l e.worker).resp_cnt + 1 := fun hd => by
        have := Int.le_of_dvd (by omega) hd
        omega
      refine ⟨?_, ?_⟩
      · rw [ihend, hr1]
        congr 1
        simp only [List.length_cons]
        push_cast
        ring
      · intro i hi
        cases i with
        | zero =>
          refine ⟨fx, ok_response, List.getElem?_cons_zero, hsent, ?_, fun _ => rfl⟩
          simp only [Nat.cast_zero, add_zero]
          exact ⟨fun h => absurd h ok_not_injected, fun h => absurd h hnd⟩
        | succ i =>
          obtain ⟨fx1, r, h3, h4, h5, h6⟩ := ihpos i (by simpa using hi)
          have harith : (s1.l e.worker).resp_cnt + (i : Int) + 1
              = (s.l e.worker).resp_cnt + ((i + 1 : Nat) : Int) + 1 := by
            rw [hr1]; push_cast; ring
          rw [harith] at h5 h6
          exact ⟨fx1, r, by simpa using h3, h4, h5, h6⟩
    | err hreq hge r hr hsent hl hidx hcount =>
      have hr1 : (s1.l e.worker).resp_cnt = 0 := by
        rw [hl]; simp only [Function.update_same]
      refine ⟨?_, ?_⟩
      · rw [ihend, hr1]
        simp only [List.length_cons]
        push_cast
        have : (s.l e.worker).resp_cnt + ((es.length : Int) + 1) = (0 + (es.length : Int)) + c := by
          omega
        rw [this, Int.add_emod_self]
      · intro i hi
        cases i with
        | zero =>
          have hd : c ∣ (s.l e.worker).resp_cnt + ((0 : Nat) : Int) + 1 := by
            simp only [Nat.cast_zero, add_zero, hge]
            exact dvd_refl c
          exact ⟨fx, r, List.getElem?_cons_zero, hsent, ⟨fun _ => hd, fun _ => List.getElem?_mem hr⟩,
            fun h => absurd hd h⟩
        | succ i =>
          obtain ⟨fx1, r1, h3, h4, h5, h6⟩ := ihpos i (by simpa using hi)
          have harith : (s.l e.worker).resp_cnt + ((i + 1 : Nat) : Int) + 1
              = ((s1.l e.worker).resp_cnt + (i : Int) + 1) + c := by
            rw [hr1]; push_cast; omega
          have hiff : c ∣ (s.l e.worker).resp_cnt + ((i + 1 : Nat) : Int) + 1
              ↔ c ∣ (s1.l e.worker).resp_cnt + (i : Int) + 1 := by
            rw [harith]
            exact (Int.dvd_add_left (dvd_refl c))
          rw [← hiff] at h5 h6
          exact ⟨fx1, r1, by simpa using h3, h4, h5, h6⟩

theorem responses_four (a b c d : List Effect) (ra rb rc rd : String) (ha : sent a = [ra])
    (hb : sent b = [rb]) (hc : sent c = [rc]) (hd : sent d = [rd]) :
    responses [a, b, c, d] = [ra, rb, rc, rd] := by
  simp [responses, ha, hb, hc, hd]

/-- Cycle length 2: four complete requests on one worker are answered 200,
first error, 200, second error. -/
theorem run_cycle_two (delay : Int) (w : Fin MAX_WORKERS) (evs : List Event) (s2 : Sys)
    (tr : List (List Effect)) (hlen4 : evs.length = 4)
    (hev : ∀ e ∈ evs, e.worker = w ∧ e.isRequest = true)
    (hrun : (Sys.init delay 2).run evs = some (s2, tr)) :
    responses tr = [ok_response, err_response[0], ok_response, err_response[1]] := by
  have hc1 : (1 : Int) ≤ 2 := by decide
  have hc : (2 : Int) ≤ INT_MAX := by decide
  have hinv := init_inv delay 2 hc1
  obtain ⟨s3, tr3, hrun3, -, hlen⟩ := run_inv 2 hc1 hc evs _ hinv
  rw [hrun] at hrun3
  simp only [Option.some.injEq, Prod.mk.injEq] at hrun3
  obtain ⟨-, rfl⟩ := hrun3
  have hord := run_order 2 hc1 hc evs _ s2 tr hinv hrun
  obtain ⟨-, hpos⟩ := run_single 2 hc1 hc w evs _ s2 tr hinv hev hrun
  rw [hlen4] at hpos hlen
  obtain ⟨f0, r0, hf0, hs0, -, hok0⟩ := hpos 0 (by omega)
  obtain ⟨f1, r1, hf1, hs1, herr1, -⟩ := hpos 1 (by omega)
  obtain ⟨f2, r2, hf2, hs2, -, hok2⟩ := hpos 2 (by omega)
  obtain ⟨f3, r3, hf3, hs3, herr3, -⟩ := hpos 3 (by omega)
  have e0 : r0 = ok_response := hok0 (by simp only [Sys.init]; decide)
  have e2 : r2 = ok_response := hok2 (by simp only [Sys.init]; decide)
  have m1 : r1 ∈ err_response := herr1.mpr (by simp only [Sys.init]; decide)
  have m3 : r3 ∈ err_response := herr3.mpr (by simp only [Sys.init]; decide)
  subst e0 e2
  match tr, hlen with
  | [a, b, c, d], _ =>
    simp only [List.getElem?_cons_zero, List.getElem?_cons_succ, Option.some.injEq]
      at hf0 hf1 hf2 hf3
    subst hf0 hf1 hf2 hf3
    have hresp := responses_four a b c d _ _ _ _ hs0 hs1 hs2 hs3
    have hinj : injected [a, b, c, d] = [r1, r3] := by
      simp [injected, hresp, ok_not_injected, m1, m3]
    have h0 := hord 0 (by simp [hinj])
    have h1 := hord 1 (by simp [hinj])
    rw [hinj] at h0 h1
    simp only [Sys.init, List.getElem?_cons_zero, List.getElem?_cons_succ] at h0 h1
    have g0 : r1 = err_response[0] := by
      have : err_response[0]? = some err_response[0] :=
        List.getElem?_eq_getElem (by decide)
      rw [show (((0 : Int).toNat + 0) % HTTP_ERROR_RESP_NUM) = 0 from rfl, this] at h0
      exact Option.some.inj h0
    have g1 : r3 = err_response[1] := by
      have : err_response[1]? = some err_response[1] :=
        List.getElem?_eq_getElem (by decide)
      rw [show (((0 : Int).toNat + 1) % HTTP_ERROR_RESP_NUM) = 1 from rfl, this] at h1
      exact Option.some.inj h1
    rw [hresp, g0, g1]

/-! ## Lemmas: rounding -/

theorem rne_floor_or (s : ℚ) : rne s = ⌊s⌋ ∨ rne s = ⌊s⌋ + 1 := by
  unfold rne
  simp only
  split_ifs <;> simp

theorem rne_sub_le (s : ℚ) : |((rne s : Int) : ℚ) - s| ≤ 1 / 2 := by
  have h1 := Int.floor_le s
  have h2 := Int.lt_floor_add_one s
  unfold rne
  simp only
  split_ifs with ha hb hc
  · rw [abs_le]; constructor <;> linarith
  · rw [abs_le]; push_cast; constructor <;> linarith
  · rw [abs_le]; constructor <;> linarith
  · rw [abs_le]; push_cast; constructor <;> linarith

theorem rne_intCast (m : Int) : rne (m : ℚ) = m := by
  unfold rne
  simp

theorem le_rne (k : Int) (s : ℚ) (h : (k : ℚ) ≤ s) : k ≤ rne s := by
  have hf : k ≤ ⌊s⌋ := Int.le_floor.mpr h
  rcases rne_floor_or s with h1 | h1 <;> omega

theorem rne_le (k : Int) (s : ℚ) (h : s ≤ (k : ℚ)) : rne s ≤ k := by
  rcases eq_or_lt_of_le h with heq | hlt
  · rw [heq, rne_intCast]
  · have hf : ⌊s⌋ < k := Int.floor_lt.mpr hlt
    rcases rne_floor_or s with h1 | h1 <;> omega

theorem two_zpow_pos (k : Int) : (0 : ℚ) < 2 ^ k := zpow_pos (by norm_num) k

theorem two_zpow_le (a b : Int) (h : a ≤ b) : (2 : ℚ) ^ a ≤ 2 ^ b :=
  zpow_le_zpow_right₀ (by norm_num) h

/-- `2 ^ k` as the cast of an integer, for `0 <= k`. -/
theorem two_zpow_eq_cast (k : Int) (hk : 0 ≤ k) : (2 : ℚ) ^ k = (((2 : Int) ^ k.toNat : Int) : ℚ) := by
  obtain ⟨n, rfl⟩ := Int.eq_ofNat_of_zero_le hk
  rw [zpow_natCast, Int.toNat_ofNat]
  push_cast
  rfl

/-- Rounding in the normal range: a positive `v` between two powers of two
that the format holds rounds to a finite value between the same powers, at
most `v / 2 ^ prec` away. -/
theorem roundNE_spec (prec : Nat) (emin emax : Int) (v : ℚ) (klo khi : Int) (hprec : 1 ≤ prec)
    (hlo : (2 : ℚ) ^ klo ≤ v) (hhi : v ≤ 2 ^ khi) (h1 : emin ≤ klo) (h2 : khi ≤ emax) :
    ∃ w : ℚ, roundNE prec emin emax v = .finite w ∧ 2 ^ klo ≤ w ∧ w ≤ 2 ^ khi ∧
      |w - v| ≤ v / 2 ^ prec := by
  have hv : 0 < v := lt_of_lt_of_le (two_zpow_pos klo) hlo
  have hlog1 : (2 : ℚ) ^ Int.log 2 v ≤ v := by
    have := Int.zpow_log_le_self (b := 2) (by norm_num) hv
    simpa using this
  have hlog2 : v < (2 : ℚ) ^ (Int.log 2 v + 1) := by
    have := Int.lt_zpow_succ_log_self (b := 2) (by norm_num) v
    simpa using this
  have hklo : klo ≤ Int.log 2 v := by
    have := (Int.zpow_le_iff_le_log (b := 2) (by norm_num) hv (x := klo)).mp (by simpa using hlo)
    exact this
  have hkhi : Int.log 2 v ≤ khi := by
    by_contra hcon
    have h3 : khi + 1 ≤ Int.log 2 v := by omega
    have h4 := two_zpow_le _ _ h3
    have h5 : (2 : ℚ) ^ khi < 2 ^ (khi + 1) := zpow_lt_zpow_right₀ (by norm_num) (by omega)
    linarith
  set e := Int.log 2 v with he
  have hmax : max e emin = e := max_eq_left (by omega)
  set t := e - ((prec : Int) - 1) with ht
  have htpos := two_zpow_pos t
  set m := rne (v / 2 ^ t) with hm
  -- the significand lies between 2 ^ (prec - 1) scaled bounds
  have hlo_m : (2 : ℚ) ^ e ≤ (m : ℚ) * 2 ^ t := by
    have hcast := two_zpow_eq_cast (e - t) (by omega)
    have hle : (((2 : Int) ^ (e - t).toNat : Int) : ℚ) ≤ v / 2 ^ t := by
      rw [← hcast, le_div_iff₀ htpos, ← zpow_add₀ (by norm_num : (2 : ℚ) ≠ 0)]
      simpa using hlog1
    have := le_rne _ _ hle
    have hq : (((2 : Int) ^ (e - t).toNat : Int) : ℚ) ≤ (m : ℚ) := by exact_mod_cast this
    calc (2 : ℚ) ^ e = 2 ^ (e - t) * 2 ^ t := by
          rw [← zpow_add₀ (by norm_num : (2 : ℚ) ≠ 0)]; simp
      _ ≤ (m : ℚ) * 2 ^ t := by
          rw [hcast]; exact mul_le_mul_of_nonneg_right hq htpos.le
  have hhi_m : (m : ℚ) * 2 ^ t ≤ 2 ^ khi := by
    have hcast := two_zpow_eq_cast (khi - t) (by omega)
    have hle : v / 2 ^ t ≤ (((2 : Int) ^ (khi - t).toNat : Int) : ℚ) := by
      rw [← hcast, div_le_iff₀ htpos, ← zpow_add₀ (by norm_num : (2 : ℚ) ≠ 0)]
      simpa using hhi
    have := rne_le _ _ hle
    have hq : (m : ℚ) ≤ (((2 : Int) ^ (khi - t).toNat : Int) : ℚ) := by exact_mod_cast this
    calc (m : ℚ) * 2 ^ t ≤ 2 ^ (khi - t) * 2 ^ t := by
          rw [hcast]; exact mul_le_mul_of_nonneg_right hq htpos.le
      _ = 2 ^ khi := by rw [← zpow_add₀ (by norm_num : (2 : ℚ) ≠ 0)]; simp
  have hfin : ¬ (2 : ℚ) ^ (emax + 1) ≤ (m : ℚ) * 2 ^ t := by
    have h5 : (2 : ℚ) ^ khi < 2 ^ (emax + 1) := zpow_lt_zpow_right₀ (by norm_num) (by omega)
    intro h6
    linarith
  refine ⟨(m : ℚ) * 2 ^ t, ?_, le_trans (two_zpow_le _ _ hklo) hlo_m, hhi_m, ?_⟩
  · have hv0 : v ≠ 0 := ne_of_gt hv
    have hneg : ¬ v < 0 := not_lt.mpr hv.le
    simp only [roundNE, hv0, if_false, abs_of_pos hv, ← he, hmax, ← ht, ← hm, hfin, hneg]
  · have herr := rne_sub_le (v / 2 ^ t)
    rw [← hm] at herr
    have h7 : (m : ℚ) * 2 ^ t - v = ((m : ℚ) - v / 2 ^ t) * 2 ^ t := by
      field_simp
    rw [h7, abs_mul, abs_of_pos htpos]
    have h8 : (2 : ℚ) ^ t = 2 ^ e * 2 / 2 ^ prec := by
      rw [ht, show e - ((prec : Int) - 1) = e + 1 - (prec : Int) by ring, zpow_sub₀ (by norm_num),
        zpow_add₀ (by norm_num), zpow_one, zpow_natCast]
    have h9 : |(m : ℚ) - v / 2 ^ t| * 2 ^ t ≤ 1 / 2 * 2 ^ t :=
      mul_le_mul_of_nonneg_right herr htpos.le
    have hpp : (0 : ℚ) < 2 ^ prec := pow_pos (by norm_num) prec
    calc |(m : ℚ) - v / 2 ^ t| * 2 ^ t ≤ 1 / 2 * 2 ^ t := h9
      _ = 2 ^ e / 2 ^ prec := by rw [h8]; ring
      _ ≤ v / 2 ^ prec := div_le_div_of_nonneg_right hlog1 hpp.le

theorem rne_eval (s : ℚ) (m : Int) (h : |s - (m : ℚ)| < 1 / 2) : rne s = m := by
  have h1 := rne_sub_le s
  rw [abs_lt] at h
  rw [abs_le] at h1
  have h2 : ((rne s : Int) : ℚ) - (m : ℚ) < 1 := by linarith
  have h3 : (m : ℚ) - ((rne s : Int) : ℚ) < 1 := by linarith
  have h4 : rne s - m < 1 := by exact_mod_cast h2
  have h5 : m - rne s < 1 := by exact_mod_cast h3
  omega

theorem log_two_eval (v : ℚ) (e : Int) (h1 : (2 : ℚ) ^ e ≤ v) (h2 : v < 2 ^ (e + 1)) :
    Int.log 2 v = e := by
  have hv : 0 < v := lt_of_lt_of_le (two_zpow_pos e) h1
  have h3 : e ≤ Int.log 2 v :=
    (Int.zpow_le_iff_le_log (b := 2) (by norm_num) hv).mp (by simpa using h1)
  have h4 : Int.log 2 v < e + 1 :=
    (Int.lt_zpow_iff_log_lt (b := 2) (by norm_num) hv).mp (by simpa using h2)
  omega

/-- Evaluating a rounding from its exponent `e` and significand `m`. -/
theorem roundNE_eval (prec : Nat) (emin emax : Int) (v : ℚ) (e m : Int)
    (h1 : (2 : ℚ) ^ e ≤ v) (h2 : v < 2 ^ (e + 1)) (he : emin ≤ e)
    (hm : |v / 2 ^ (e - ((prec : Int) - 1)) - (m : ℚ)| < 1 / 2)
    (hfin : (m : ℚ) * 2 ^ (e - ((prec : Int) - 1)) < 2 ^ (emax + 1)) :
    roundNE prec emin emax v = .finite ((m : ℚ) * 2 ^ (e - ((prec : Int) - 1))) := by
  have hv : 0 < v := lt_of_lt_of_le (two_zpow_pos e) h1
  have hv0 : v ≠ 0 := ne_of_gt hv
  have hneg : ¬ v < 0 := not_lt.mpr hv.le
  simp only [roundNE, hv0, if_false, abs_of_pos hv, log_two_eval v e h1 h2, max_eq_left he,
    rne_eval _ m hm, not_le.mpr hfin, hneg]

theorem to_double_three_fifths :
    to_double (3 / 5) = .finite (5404319552844595 / 9007199254740992) := by
  have h := roundNE_eval 53 (-1022) 1023 (3 / 5) (-1) 5404319552844595 (by norm_num)
    (by norm_num) (by norm_num) (by norm_num [abs_lt]) (by norm_num)
  rw [to_double, h]
  norm_num

theorem to_float_three_fifths :
    to_float (5404319552844595 / 9007199254740992) = .finite (5033165 / 8388608) := by
  have h := roundNE_eval 24 (-126) 127 (5404319552844595 / 9007199254740992) (-1) 10066330
    (by norm_num) (by norm_num) (by norm_num) (by norm_num [abs_lt]) (by norm_num)
  rw [to_float, h]
  norm_num

theorem one_div_three_fifths :
    to_float (1 / (5033165 / 8388608)) = .finite (13981013 / 8388608) := by
  have h := roundNE_eval 24 (-126) 127 (1 / (5033165 / 8388608)) 0 13981013
    (by norm_num) (by norm_num) (by norm_num) (by norm_num [abs_lt]) (by norm_num)
  rw [to_float, h]
  norm_num

theorem to_float_one_half : to_float (1 / 2) = .finite (1 / 2) := by
  have h := roundNE_eval 24 (-126) 127 (1 / 2) (-1) 8388608
    (by norm_num) (by norm_num) (by norm_num) (by norm_num [abs_lt]) (by norm_num)
  rw [to_float, h]
  norm_num

theorem to_float_two : to_float 2 = .finite 2 := by
  have h := roundNE_eval 24 (-126) 127 2 1 8388608
    (by norm_num) (by norm_num) (by norm_num) (by norm_num [abs_lt]) (by norm_num)
  rw [to_float, h]
  norm_num

/-- Lines 307-317 when the rate, as a `float`, is in `(0, 1]` and the
quotient fits an `int`: the cycle length is the quotient without its
fraction. -/
theorem main_errate_of (d : FloatVal) (x q : ℚ) (cf : Config) (hx : d.to_float = .finite x)
    (hx0 : 0 < x) (hx1 : x ≤ 1) (hq : to_float (1 / x) = .finite q) (hq1 : 1 ≤ q)
    (hq2 : q < 2 ^ 31) :
    main_errate d cf = some { cf with errate := .finite x, send_err_cycle := ⌊q⌋ } := by
  have h_gt : (FloatVal.finite x).gt 1 = false := by
    simp only [FloatVal.gt, decide_eq_false_iff_not, not_lt]; exact hx1
  have h_lt : (FloatVal.finite x).lt 0 = false := by
    simp only [FloatVal.lt, decide_eq_false_iff_not, not_lt]; exact hx0.le
  have h_ne : (FloatVal.finite x).ne 0 = true := by
    simp only [FloatVal.ne, decide_eq_true_eq]; exact hx0.ne'
  have h_div : float_one_div (.finite x) = .finite q := by
    simp only [float_one_div, hx0.ne', if_false, hq]
  have hf1 : (1 : Int) ≤ ⌊q⌋ := Int.le_floor.mpr (by simpa using hq1)
  have hf2 : ⌊q⌋ < 2 ^ 31 := Int.floor_lt.mpr (by simpa using hq2)
  have h_int : float_to_int (.finite q) = some ⌊q⌋ := by
    have hq0 : 0 ≤ q := by linarith
    have hr : INT_MIN ≤ ⌊q⌋ ∧ ⌊q⌋ ≤ INT_MAX := by
      simp only [INT_MIN, INT_MAX]; omega
    simp only [float_to_int, hq0, if_true, hr, and_self]
  have hnot : ¬ ⌊q⌋ < 1 := by omega
  simp only [main_errate, hx, h_gt, Bool.false_eq_true, if_false, h_lt, h_ne, if_true, h_div,
    h_int, Option.map_some', hnot]

theorem main_errate_three_fifths (cf : Config) :
    main_errate (to_double (3 / 5)) cf
      = some { cf with errate := .finite (5033165 / 8388608), send_err_cycle := 1 } := by
  have hfloor : ⌊(13981013 / 8388608 : ℚ)⌋ = 1 := by
    rw [Int.floor_eq_iff]; norm_num
  have h := main_errate_of (to_double (3 / 5)) (5033165 / 8388608) (13981013 / 8388608) cf
    (by rw [to_double_three_fifths]; exact to_float_three_fifths) (by norm_num) (by norm_num)
    one_div_three_fifths (by norm_num) (by norm_num)
  rw [h, hfloor]

theorem main_errate_one_half (cf : Config) :
    main_errate (.finite (1 / 2)) cf
      = some { cf with errate := .finite (1 / 2), send_err_cycle := 2 } := by
  have hinv : (1 : ℚ) / (1 / 2) = 2 := by norm_num
  have hfloor : ⌊(2 : ℚ)⌋ = 2 := by
    rw [Int.floor_eq_iff]; norm_num
  have h := main_errate_of (.finite (1 / 2)) (1 / 2) 2 cf to_float_one_half (by norm_num)
    (by norm_num) (by rw [hinv]; exact to_float_two) (by norm_num) (by norm_num)
  rw [h, hfloor]

theorem main_errate_zero (cf : Config) :
    main_errate (.finite 0) cf = some { cf with errate := .finite 0 } := by
  have hx : (FloatVal.finite 0).to_float = .finite 0 := by
    simp only [FloatVal.to_float, to_float, roundNE, if_true]
  have h_gt : (FloatVal.finite 0).gt 1 = false := by
    simp only [FloatVal.gt, decide_eq_false_iff_not, not_lt]; norm_num
  have h_lt : (FloatVal.finite 0).lt 0 = false := by
    simp only [FloatVal.lt, decide_eq_false_iff_not, not_lt]; norm_num
  have h_ne : (FloatVal.finite 0).ne 0 = false := by
    simp only [FloatVal.ne, ne_eq, not_true_eq_false, decide_False]
  simp only [main_errate, hx, h_gt, Bool.false_eq_true, if_false, h_lt, h_ne]

/-! ## The fault injector (claims C1, C4, C9, C10) -/

theorem requestsOn_all (w : Fin MAX_WORKERS) (evs : List Event)
    (hev : ∀ e ∈ evs, e.worker = w ∧ e.isRequest = true) : requestsOn w evs = evs.length := by
  unfold requestsOn
  rw [List.countP_eq_length]
  intro e he
  simp [hev e he]

theorem requestsOn_none (w v : Fin MAX_WORKERS) (hvw : v ≠ w) (evs : List Event)
    (hev : ∀ e ∈ evs, e.worker = w ∧ e.isRequest = true) : requestsOn v evs = 0 := by
  unfold requestsOn
  rw [List.countP_eq_zero]
  intro e he
  have := (hev e he).1
  simp only [Bool.and_eq_true, decide_eq_true_eq, not_and]
  intro _ h
  exact hvw (h.symm.trans this)

theorem take_all {α : Type} (p : α → Prop) (l : List α) (n : Nat) (h : ∀ a ∈ l, p a) :
    ∀ a ∈ l.take n, p a := fun a ha => h a (List.mem_of_mem_take ha)

/-- C1. With cycle length `c >= 1` (an `int`, so at most `INT_MAX`) and one
worker `w` handling complete requests only, from the start state: the `i`-th
request (counted from 1) is answered with an entry of `err_response` exactly
when `c` divides `i` and with the canned 200 response otherwise; after every
such `i`-th request the worker's `resp_cnt` is 0; and the first `N` requests
draw exactly `N / c` errors. -/
theorem fault_cycle_one_worker (c delay : Int) (w : Fin MAX_WORKERS) (evs : List Event)
    (hc1 : 1 ≤ c) (hc : c ≤ INT_MAX)
    (hev : ∀ e ∈ evs, e.worker = w ∧ e.isRequest = true) :
    ∃ s2 tr, (Sys.init delay c).run evs = some (s2, tr) ∧
      (∀ i, 1 ≤ i → i ≤ evs.length → ∃ fx r, tr[i - 1]? = some fx ∧ sent fx = [r] ∧
        (r ∈ err_response ↔ c ∣ (i : Int)) ∧ (¬ c ∣ (i : Int) → r = ok_response)) ∧
      (∀ i, 1 ≤ i → i ≤ evs.length → c ∣ (i : Int) →
        ∃ s1 tr1, (Sys.init delay c).run (evs.take i) = some (s1, tr1) ∧
          (s1.l w).resp_cnt = 0) ∧
      (injected tr).length = evs.length / c.toNat := by
  have hinv := init_inv delay c hc1
  obtain ⟨s2, tr, hrun, -, -⟩ := run_inv c hc1 hc evs _ hinv
  obtain ⟨-, hpos⟩ := run_single c hc1 hc w evs _ s2 tr hinv hev hrun
  refine ⟨s2, tr, hrun, ?_, ?_, ?_⟩
  · intro i hi1 hi2
    obtain ⟨fx, r, h1, h2, h3, h4⟩ := hpos (i - 1) (by omega)
    have harith : ((Sys.init delay c).l w).resp_cnt + ((i - 1 : Nat) : Int) + 1 = (i : Int) := by
      simp only [Sys.init]; omega
    rw [harith] at h3 h4
    exact ⟨fx, r, h1, h2, h3, h4⟩
  · intro i hi1 hi2 hdvd
    obtain ⟨s1, tr1, hrun1, -, -⟩ := run_inv c hc1 hc (evs.take i) _ hinv
    obtain ⟨hend, -⟩ := run_single c hc1 hc w (evs.take i) _ s1 tr1 hinv
      (take_all _ evs i hev) hrun1
    refine ⟨s1, tr1, hrun1, ?_⟩
    rw [hend, List.length_take, min_eq_left hi2]
    simp only [Sys.init, zero_add]
    exact Int.emod_eq_zero_of_dvd hdvd
  · rw [run_count c hc1 hc evs _ s2 tr hinv hrun, Finset.sum_eq_single w]
    · simp [Sys.init, requestsOn_all w evs hev]
    · intro v _ hvw
      simp only [Sys.init, requestsOn_none w v hvw evs hev]
      exact Nat.div_eq_of_lt (by omega)
    · intro h
      exact absurd (Finset.mem_univ w) h

theorem fault_cycle_one_worker_witness :
    ∃ s2 tr, (Sys.init 0 2).run three_requests = some (s2, tr) ∧
      (∀ i : Nat, 1 ≤ i → i ≤ three_requests.length →
        ∃ fx r, tr[i - 1]? = some fx ∧ sent fx = [r] ∧
        (r ∈ err_response ↔ (2 : Int) ∣ (i : Int)) ∧
        (¬ (2 : Int) ∣ (i : Int) → r = ok_response)) ∧
      (∀ i : Nat, 1 ≤ i → i ≤ three_requests.length → (2 : Int) ∣ (i : Int) →
        ∃ s1 tr1, (Sys.init 0 2).run (three_requests.take i) = some (s1, tr1) ∧
          (s1.l 1).resp_cnt = 0) ∧
      (injected tr).length = three_requests.length / (2 : Int).toNat :=
  fault_cycle_one_worker 2 0 1 three_requests (by decide) (by decide) (by decide)

/-- C4. From the start state with cycle length `c >= 1`, whatever events the
four workers handle one after another, the `j`-th injected error (counted
from 0) is `err_response[j mod 6]`; the statuses of the table are 400, 401,
403, 404, 500, 503 in this order; and with `c = 2` four complete requests on
one worker are answered 200, `err_response[0]`, 200, `err_response[1]`. -/
theorem error_order (c delay : Int) (evs : List Event) (hc1 : 1 ≤ c) (hc : c ≤ INT_MAX) :
    ∃ s2 tr, (Sys.init delay c).run evs = some (s2, tr) ∧
      (∀ j, j < (injected tr).length →
        (injected tr)[j]? = err_response[j % HTTP_ERROR_RESP_NUM]?) ∧
      err_response.map statusOf = ["400", "401", "403", "404", "500", "503"] ∧
      (c = 2 → evs.length = 4 →
        (∀ w : Fin MAX_WORKERS, (∀ e ∈ evs, e.worker = w ∧ e.isRequest = true) →
          responses tr = [ok_response, err_response[0], ok_response, err_response[1]])) := by
  have hinv := init_inv delay c hc1
  obtain ⟨s2, tr, hrun, -, hlen⟩ := run_inv c hc1 hc evs _ hinv
  have hord := run_order c hc1 hc evs _ s2 tr hinv hrun
  refine ⟨s2, tr, hrun, ?_, by decide, ?_⟩
  · intro j hj
    have := hord j hj
    simpa [Sys.init] using this
  · intro hc2 hlen4 w hev
    subst hc2
    exact run_cycle_two delay w evs s2 tr hlen4 hev hrun

theorem error_order_witness :
    ∃ s2 tr, (Sys.init 0 2).run four_requests = some (s2, tr) ∧
      (∀ j, j < (injected tr).length →
        (injected tr)[j]? = err_response[j % HTTP_ERROR_RESP_NUM]?) ∧
      err_response.map statusOf = ["400", "401", "403", "404", "500", "503"] ∧
      ((2 : Int) = 2 → four_requests.length = 4 →
        (∀ w : Fin MAX_WORKERS, (∀ e ∈ four_requests, e.worker = w ∧ e.isRequest = true) →
          responses tr = [ok_response, err_response[0], ok_response, err_response[1]])) :=
  error_order 2 0 four_requests (by decide) (by decide)

/-- C9, as the code has it. `resp_cnt` is a local of each worker, so each
worker counts its own requests: with cycle length `c >= 1`, from the start
state, a run injects exactly the sum over the four workers `w` of
`N_w / c` errors, `N_w` being the number of complete requests `w` handled;
with `N` the total, that is at most `N / c` and at least `N / c - 3`. -/
theorem error_count_per_worker (c delay : Int) (evs : List Event) (hc1 : 1 ≤ c)
    (hc : c ≤ INT_MAX) :
    ∃ s2 tr, (Sys.init delay c).run evs = some (s2, tr) ∧
      (injected tr).length = ∑ w : Fin MAX_WORKERS, requestsOn w evs / c.toNat ∧
      (injected tr).length ≤ evs.countP (fun e => e.isRequest) / c.toNat ∧
      evs.countP (fun e => e.isRequest) / c.toNat ≤ (injected tr).length + 3 := by
  have hinv := init_inv delay c hc1
  have hC : 0 < c.toNat := by omega
  obtain ⟨s2, tr, hrun, -, -⟩ := run_inv c hc1 hc evs _ hinv
  have hcount := run_count c hc1 hc evs _ s2 tr hinv hrun
  simp only [Sys.init, Int.toNat_zero, zero_add] at hcount
  refine ⟨s2, tr, hrun, hcount, ?_, ?_⟩
  · rw [hcount, ← requestsOn_sum]
    exact sum_div_le c.toNat hC _
  · rw [hcount, ← requestsOn_sum]
    exact div_le_sum_div_add c.toNat hC _

theorem error_count_per_worker_witness :
    ∃ s2 tr, (Sys.init 0 2).run one_per_worker = some (s2, tr) ∧
      (injected tr).length = ∑ w : Fin MAX_WORKERS, requestsOn w one_per_worker / (2 : Int).toNat ∧
      (injected tr).length ≤ one_per_worker.countP (fun e => e.isRequest) / (2 : Int).toNat ∧
      one_per_worker.countP (fun e => e.isRequest) / (2 : Int).toNat ≤ (injected tr).length + 3 :=
  error_count_per_worker 2 0 one_per_worker (by decide) (by decide)

/-- C9 as stated fails: with cycle length 2, four complete requests, one on
each worker, draw no error at all, while `4 / 2 = 2`. -/
theorem error_count_shared_counterexample :
    (∀ e ∈ one_per_worker, e.isRequest = true) ∧ one_per_worker.length / 2 = 2 ∧
    ∃ s2 tr, (Sys.init 0 2).run one_per_worker = some (s2, tr) ∧ (injected tr).length = 0 := by
  refine ⟨by decide, by decide, ?_⟩
  have hinv := init_inv 0 2 (by decide)
  obtain ⟨s2, tr, hrun, -, -⟩ := run_inv 2 (by decide) (by decide) one_per_worker _ hinv
  refine ⟨s2, tr, hrun, ?_⟩
  rw [run_count 2 (by decide) (by decide) one_per_worker _ s2 tr hinv hrun]
  decide

/-- C10. With cycle length `c >= 1`, after any number of events handled one
at a time from the start state: the run is defined (no read outside
`err_response`, no `int` overflow), every worker has `0 <= resp_cnt < c`,
`0 <= err_index_g < 6`, the index that line 227 would compute next lies in
the table, and every worker's `err_idx` (one past the index it read last) is
in `[0, 6]`. -/
theorem fault_state_in_range (c delay : Int) (evs : List Event) (hc1 : 1 ≤ c)
    (hc : c ≤ INT_MAX) (n : Nat) :
    ∃ s1 tr, (Sys.init delay c).run (evs.take n) = some (s1, tr) ∧
      (∀ w, 0 ≤ (s1.l w).resp_cnt ∧ (s1.l w).resp_cnt < c) ∧
      (0 ≤ s1.g.err_index_g ∧ s1.g.err_index_g < HTTP_ERROR_RESP_NUM) ∧
      (err_response_at (Int.tmod s1.g.err_index_g HTTP_ERROR_RESP_NUM)).isSome = true ∧
      (∀ w, 0 ≤ (s1.l w).err_idx ∧ (s1.l w).err_idx ≤ HTTP_ERROR_RESP_NUM) := by
  obtain ⟨s1, tr, hrun, hinv, -⟩ := run_inv c hc1 hc (evs.take n) _ (init_inv delay c hc1)
  refine ⟨s1, tr, hrun, fun w => ⟨hinv.cnt_lo w, hinv.cnt_hi w⟩, ⟨hinv.idx_lo, hinv.idx_hi⟩, ?_,
    fun w => ⟨hinv.eidx_lo w, hinv.eidx_hi w⟩⟩
  have h0 := hinv.idx_lo
  have h6 := hinv.idx_hi
  simp only [HTTP_ERROR_RESP_NUM] at h6 ⊢
  have hk : s1.g.err_index_g = ((s1.g.err_index_g.toNat : Nat) : Int) := by omega
  have hmod : Int.tmod s1.g.err_index_g ((6 : Nat) : Int) = s1.g.err_index_g := by
    rw [Int.tmod_eq_emod h0 (by omega)]
    omega
  rw [hmod, hk, err_response_at_nat]
  have hlt : s1.g.err_index_g.toNat < err_response.length := by
    have : err_response.length = 6 := by decide
    omega
  simp [List.getElem?_eq_getElem hlt]

theorem fault_state_in_range_witness :
    ∃ s1 tr, (Sys.init 0 2).run (one_per_worker.take 3) = some (s1, tr) ∧
      (∀ w, 0 ≤ (s1.l w).resp_cnt ∧ (s1.l w).resp_cnt < 2) ∧
      (0 ≤ s1.g.err_index_g ∧ s1.g.err_index_g < HTTP_ERROR_RESP_NUM) ∧
      (err_response_at (Int.tmod s1.g.err_index_g HTTP_ERROR_RESP_NUM)).isSome = true ∧
      (∀ w, 0 ≤ (s1.l w).err_idx ∧ (s1.l w).err_idx ≤ HTTP_ERROR_RESP_NUM) :=
  fault_state_in_range 2 0 one_per_worker (by decide) (by decide) 3

/-! ## The acceptor (claim C5) -/

theorem atomic_fetch_add_one (v : Int) (h1 : INT_MIN ≤ v) (h2 : v < INT_MAX) :
    atomic_fetch_add v 1 = v + 1 := by
  simp only [INT_MIN, INT_MAX] at h1 h2
  simp only [atomic_fetch_add, Int.bmod]
  norm_num
  omega

theorem accept_client_fail (client_socket errno : Int) (g : Globals) (h : client_socket < 0) :
    ∃ fx, accept_client client_socket errno g = some (g, fx) ∧ registered fx = [] := by
  unfold accept_client
  by_cases he : errno = EAGAIN ∨ errno = EWOULDBLOCK
  · exact ⟨[Effect.usleep 2000], by simp [h, he], by simp [registered]⟩
  · exact ⟨[], by simp [h, he], by simp [registered]⟩

theorem accept_client_ok (client_socket errno : Int) (g : Globals) (a : Nat)
    (h : 0 ≤ client_socket) (ha : g.next_worker = (a : Int)) (ha4 : a < MAX_WORKERS) :
    ∃ fx, accept_client client_socket errno g
        = some ({ g with next_worker := (((a + 1) % MAX_WORKERS : Nat) : Int),
                         active_connections := atomic_fetch_add g.active_connections 1 }, fx) ∧
      registered fx = [(a, client_socket)] := by
  simp only [MAX_WORKERS] at ha4 ⊢
  have h1 : ¬ client_socket < 0 := by omega
  have h2 : (a : Int) < INT_MAX := by simp only [INT_MAX]; omega
  have h3 : Int.tmod ((a : Int) + 1) ((4 : Nat) : Int) = (((a + 1) % 4 : Nat) : Int) := by
    rw [Int.tmod_eq_emod (by omega) (by omega)]
    omega
  have h4 : (0 : Int) ≤ (a : Int) ∧ (a : Int) < ((4 : Nat) : Int) := by omega
  refine ⟨[Effect.set_nonblocking client_socket, Effect.epoll_ctl_add a client_socket], ?_,
    by simp [registered]⟩
  simp only [accept_client, h1, if_false, ha, int_incr, h2, if_true, Option.bind_eq_bind,
    Option.some_bind, h3, h4, and_self, Int.toNat_ofNat]

theorem accept_loop_cons (g g1 g2 : Globals) (client_socket errno : Int) (rs : List (Int × Int))
    (fx : List Effect) (tr : List (List Effect))
    (h1 : accept_client client_socket errno g = some (g1, fx))
    (h2 : accept_loop g1 rs = some (g2, tr)) :
    accept_loop g ((client_socket, errno) :: rs) = some (g2, fx :: tr) := by
  rw [accept_loop, h1]
  simp only [Option.bind_eq_bind, Option.some_bind, h2, Option.map_some']

theorem accepted_cons (r : Int × Int) (rs : List (Int × Int)) :
    accepted (r :: rs) = if 0 ≤ r.1 then r.1 :: accepted rs else accepted rs := by
  by_cases h : 0 ≤ r.1 <;> simp [accepted, List.filter_cons, h]

/-- From any worker index in range the acceptor hands the `k`-th accepted
connection to worker `(a + k) mod 4`. -/
theorem accept_loop_from (rs : List (Int × Int)) :
    ∀ (g : Globals) (a : Nat), g.next_worker = (a : Int) → a < MAX_WORKERS →
      ∃ g2 tr, accept_loop g rs = some (g2, tr) ∧
        (registrations tr).length = (accepted rs).length ∧
        ∀ k, k < (accepted rs).length →
          (registrations tr)[k]? = ((accepted rs)[k]?).map (fun fd => ((a + k) % MAX_WORKERS, fd)) := by
  induction rs with
  | nil => exact fun g a _ _ => ⟨g, [], rfl, by simp [registrations, accepted], by simp [accepted]⟩
  | cons r rs ih =>
    intro g a ha ha4
    obtain ⟨client_socket, errno⟩ := r
    by_cases hs : 0 ≤ client_socket
    · obtain ⟨fx, hstep, hreg⟩ := accept_client_ok client_socket errno g a hs ha ha4
      obtain ⟨g2, tr, hrun, hlen, hpos⟩ := ih
        { g with next_worker := (((a + 1) % MAX_WORKERS : Nat) : Int),
                 active_connections := atomic_fetch_add g.active_connections 1 }
        ((a + 1) % MAX_WORKERS) rfl (Nat.mod_lt _ (by decide))
      refine ⟨g2, fx :: tr, accept_loop_cons _ _ _ _ _ _ _ _ hstep hrun, ?_, ?_⟩
      · simp [registrations, hreg, hlen, accepted_cons, hs]
      · intro k hk
        simp only [accepted_cons, hs, if_true, registrations, hreg, List.singleton_append] at hk ⊢
        cases k with
        | zero =>
          simp only [List.getElem?_cons_zero, Option.map_some', add_zero]
          rw [Nat.mod_eq_of_lt ha4]
        | succ k =>
          simp only [List.getElem?_cons_succ]
          rw [hpos k (by simpa using hk)]
          congr 1
          funext fd
          simp only [MAX_WORKERS, Prod.mk.injEq, and_true]
          omega
    · obtain ⟨fx, hstep, hreg⟩ := accept_client_fail client_socket errno g (by omega)
      obtain ⟨g2, tr, hrun, hlen, hpos⟩ := ih g a ha ha4
      refine ⟨g2, fx :: tr, accept_loop_cons _ _ _ _ _ _ _ _ hstep hrun, ?_, ?_⟩
      · simp [registrations, hreg, hlen, accepted_cons, hs]
      · intro k hk
        simp only [accepted_cons, hs, if_false, registrations, hreg, List.nil_append] at hk ⊢
        exact hpos k hk

/-- C5. Starting from `next_worker = 0`, for every sequence of
`accept_client` calls: the `k`-th successfully accepted connection (counted
from 0) is registered on worker `k mod 4`; a call whose `accept` fails or
would block leaves all globals (so `next_worker` and `active_connections`)
unchanged and registers nothing; a successful one, with `next_worker` in
`[0, 4)`, adds 1 to `active_connections` with `atomic_fetch_add`, which is
`+ 1` exactly for every value below `INT_MAX`. -/
theorem round_robin (g : Globals) (rs : List (Int × Int)) (h0 : g.next_worker = 0) :
    (∃ g2 tr, accept_loop g rs = some (g2, tr) ∧
      (registrations tr).length = (accepted rs).length ∧
      ∀ k, k < (accepted rs).length →
        (registrations tr)[k]? = ((accepted rs)[k]?).map (fun fd => (k % MAX_WORKERS, fd))) ∧
    (∀ (g1 : Globals) (client_socket errno : Int), client_socket < 0 →
      ∃ fx, accept_client client_socket errno g1 = some (g1, fx) ∧ registered fx = []) ∧
    (∀ (g1 : Globals) (client_socket errno : Int), 0 ≤ client_socket →
      0 ≤ g1.next_worker → g1.next_worker < MAX_WORKERS →
      ∃ g3 fx, accept_client client_socket errno g1 = some (g3, fx) ∧
        g3.active_connections = atomic_fetch_add g1.active_connections 1 ∧
        (INT_MIN ≤ g1.active_connections → g1.active_connections < INT_MAX →
          g3.active_connections = g1.active_connections + 1)) := by
  refine ⟨?_, fun g1 fd errno h => accept_client_fail fd errno g1 h, ?_⟩
  · obtain ⟨g2, tr, hrun, hlen, hpos⟩ := accept_loop_from rs g 0 (by simpa using h0) (by decide)
    exact ⟨g2, tr, hrun, hlen, fun k hk => by simpa using hpos k hk⟩
  · intro g1 fd errno hfd hlo hhi
    obtain ⟨fx, hstep, -⟩ := accept_client_ok fd errno g1 g1.next_worker.toNat hfd (by omega)
      (by simp only [MAX_WORKERS] at hhi ⊢; omega)
    exact ⟨_, fx, hstep, rfl, fun h1 h2 => atomic_fetch_add_one _ h1 h2⟩

theorem round_robin_witness :
    (∃ g2 tr, accept_loop (Sys.init 0 0).g seven_accepts = some (g2, tr) ∧
      (registrations tr).length = (accepted seven_accepts).length ∧
      ∀ k, k < (accepted seven_accepts).length →
        (registrations tr)[k]?
          = ((accepted seven_accepts)[k]?).map (fun fd => (k % MAX_WORKERS, fd))) ∧
    (∀ (g1 : Globals) (client_socket errno : Int), client_socket < 0 →
      ∃ fx, accept_client client_socket errno g1 = some (g1, fx) ∧ registered fx = []) ∧
    (∀ (g1 : Globals) (client_socket errno : Int), 0 ≤ client_socket →
      0 ≤ g1.next_worker → g1.next_worker < MAX_WORKERS →
      ∃ g3 fx, accept_client client_socket errno g1 = some (g3, fx) ∧
        g3.active_connections = atomic_fetch_add g1.active_connections 1 ∧
        (INT_MIN ≤ g1.active_connections → g1.active_connections < INT_MAX →
          g3.active_connections = g1.active_connections + 1)) :=
  round_robin (Sys.init 0 0).g seven_accepts rfl

/-! ## Reads (claims C6, C7) and the canned responses (claim C2) -/

theorem sends_slept (d : Int) (sock : Int) (r : String) :
    sends ((if d ≠ 0 then [Effect.usleep (d * 1000)] else []) ++ [Effect.send sock r])
      = [(sock, r)] := by
  split_ifs <;> simp [sends]

theorem data_isRequest (bytes : List Byte) (hn1 : 1 ≤ bytes.length)
    (hterm : CRLFCRLF <:+: bytes.takeWhile (fun b => b != NUL)) :
    (decide (0 < (Recv.data bytes).bytes_received) &&
      (strstr (Recv.data bytes).buffer (CRLFCRLF ++ [NUL])).isSome) = true := by
  have h1 : 0 < (Recv.data bytes).bytes_received := by
    simp only [Recv.bytes_received]; omega
  have h2 := (strstr_buffer_iff bytes).mpr hterm
  simp only [Recv.buffer, h1, h2, decide_True, Bool.and_self]

theorem data_not_isRequest (bytes : List Byte) (hno : ¬ CRLFCRLF <:+: bytes) :
    (strstr (Recv.data bytes).buffer (CRLFCRLF ++ [NUL])).isSome = false := by
  have h2 : ¬ (strstr (bytes ++ [NUL]) (CRLFCRLF ++ [NUL])).isSome = true := fun h =>
    hno (((strstr_buffer_iff bytes).mp h).trans (takeWhile_infix_self bytes _))
  simpa [Recv.buffer] using h2

/-- C6, as the code has it. `strstr` reads the buffer as a C string, so only
the bytes before the first NUL count. For every read of `n` bytes,
`1 <= n <= 8191`, whose bytes before the first NUL (all of them when there is
none) contain CR LF CR LF, in a state with `0 <= err_index_g < 6` and
`resp_cnt < INT_MAX`: `worker_function` adds 1 to `request_count` with
`atomic_fetch_add` (exactly `+ 1` below `INT_MAX`) and calls `send` exactly
once, on that socket, with the 200 response or an entry of `err_response`. -/
theorem complete_request_answered (thread_id : Nat) (client_socket : Int) (bytes : List Byte)
    (g : Globals) (l : WorkerLocal) (hn1 : 1 ≤ bytes.length) (_hn2 : bytes.length ≤ BUFFER_SIZE - 1)
    (hterm : CRLFCRLF <:+: bytes.takeWhile (fun b => b != NUL))
    (hk0 : 0 ≤ g.err_index_g) (hk6 : g.err_index_g < HTTP_ERROR_RESP_NUM)
    (hcnt : l.resp_cnt < INT_MAX) :
    ∃ g1 l1 fx response,
      worker_function_event thread_id client_socket (.data bytes) g l = some (g1, l1, fx) ∧
      g1.request_count = atomic_fetch_add g.request_count 1 ∧
      (INT_MIN ≤ g.request_count → g.request_count < INT_MAX →
        g1.request_count = g.request_count + 1) ∧
      sends fx = [(client_socket, response)] ∧
      (response = ok_response ∨ response ∈ err_response) := by
  have hev := event_request thread_id client_socket (.data bytes) g l
    (data_isRequest bytes hn1 hterm)
  have hadd : INT_MIN ≤ g.request_count → g.request_count < INT_MAX →
      atomic_fetch_add g.request_count 1 = g.request_count + 1 :=
    fun h1 h2 => atomic_fetch_add_one _ h1 h2
  by_cases h0 : g.send_err_cycle = 0
  · rw [response_disabled { g with request_count := atomic_fetch_add g.request_count 1 } l h0]
      at hev
    exact ⟨_, _, _, ok_response, hev, rfl, hadd, sends_slept _ _ _, Or.inl rfl⟩
  · by_cases hlt : g.send_err_cycle ≤ l.resp_cnt + 1
    · have hk : g.err_index_g = ((g.err_index_g.toNat : Nat) : Int) := by omega
      obtain ⟨r, hr, hresp⟩ := response_err
        { g with request_count := atomic_fetch_add g.request_count 1 } l
        g.err_index_g.toNat h0 hcnt hlt hk (by simp only [HTTP_ERROR_RESP_NUM] at hk6 ⊢; omega)
      rw [hresp] at hev
      exact ⟨_, _, _, r, hev, rfl, hadd, sends_slept _ _ _, Or.inr (List.getElem?_mem hr)⟩
    · have hresp : worker_function_response
          { g with request_count := atomic_fetch_add g.request_count 1 } l
          = some ({ g with request_count := atomic_fetch_add g.request_count 1 },
                  { l with resp_cnt := l.resp_cnt + 1 }, ok_response) := by
        simp [worker_function_response, h0, int_incr, hcnt, hlt]
      rw [hresp] at hev
      exact ⟨_, _, _, ok_response, hev, rfl, hadd, sends_slept _ _ _, Or.inl rfl⟩

theorem complete_request_answered_witness :
    ∃ g1 l1 fx response,
      worker_function_event 0 7 (.data get_request) (Sys.init 0 2).g ⟨1, 0⟩ = some (g1, l1, fx) ∧
      g1.request_count = atomic_fetch_add (Sys.init 0 2).g.request_count 1 ∧
      (INT_MIN ≤ (Sys.init 0 2).g.request_count → (Sys.init 0 2).g.request_count < INT_MAX →
        g1.request_count = (Sys.init 0 2).g.request_count + 1) ∧
      sends fx = [(7, response)] ∧
      (response = ok_response ∨ response ∈ err_response) :=
  complete_request_answered 0 7 get_request (Sys.init 0 2).g ⟨1, 0⟩ (by decide) (by decide)
    (by decide) (by decide) (by decide) (by decide)

/-- C6 as stated fails: the five bytes NUL CR LF CR LF contain the blank
line, yet `worker_function` sends nothing and leaves `request_count` as it
is, because `strstr` stops at the NUL. -/
theorem complete_request_counterexample :
    1 ≤ nul_then_blank_line.length ∧ nul_then_blank_line.length ≤ 8191 ∧
    CRLFCRLF <:+: nul_then_blank_line ∧
    worker_function_event 0 7 (.data nul_then_blank_line) (Sys.init 0 0).g ⟨0, 0⟩
      = some ((Sys.init 0 0).g, ⟨0, 0⟩, []) := by
  decide

/-- C7. For every read of `n` bytes, `1 <= n <= 8191`, whose bytes do not
contain CR LF CR LF, `worker_function` does nothing: no effect at all (no
`send`, no `close`, no deregistration) and globals and locals as before, so
`request_count`, `resp_cnt`, `err_index_g` and `active_connections` are
unchanged. -/
theorem no_terminator_no_response (thread_id : Nat) (client_socket : Int) (bytes : List Byte)
    (g : Globals) (l : WorkerLocal) (hn1 : 1 ≤ bytes.length) (_hn2 : bytes.length ≤ BUFFER_SIZE - 1)
    (hno : ¬ CRLFCRLF <:+: bytes) :
    worker_function_event thread_id client_socket (.data bytes) g l = some (g, l, []) := by
  have h1 : ¬ ((Recv.data bytes).bytes_received < 0 ∧
      ((Recv.data bytes).errno = EAGAIN ∨ (Recv.data bytes).errno = EWOULDBLOCK)) := by
    simp only [Recv.bytes_received]; omega
  have h2 : ¬ (Recv.data bytes).bytes_received ≤ 0 := by
    simp only [Recv.bytes_received]; omega
  simp only [worker_function_event, h1, h2, if_false, data_not_isRequest bytes hno,
    Bool.false_eq_true]

theorem no_terminator_no_response_witness :
    worker_function_event 2 9 (.data [CR, LF, CR, CR, LF]) (Sys.init 0 1).g ⟨0, 0⟩
      = some ((Sys.init 0 1).g, ⟨0, 0⟩, []) :=
  no_terminator_no_response 2 9 [CR, LF, CR, CR, LF] (Sys.init 0 1).g ⟨0, 0⟩ (by decide)
    (by decide) (by decide)

/-- C2, evaluated on the code. The 200 response announces 13 bytes and has
13; the six entries of `err_response` announce 52, 55, 54, 56, 63 and 65
bytes and have 61, 62, 59, 64, 78 and 76. -/
theorem content_length_of_table :
    contentLength ok_response = some 13 ∧ bodyBytes ok_response = some 13 ∧
    err_response.map contentLength = [some 52, some 55, some 54, some 56, some 63, some 65] ∧
    err_response.map bodyBytes = [some 61, some 62, some 59, some 64, some 78, some 76] := by
  decide

/-! ## The command line (claims C3, C8) -/

/-- C3, as the code has it. The conversion of `1/errate` to `int` drops the
fraction; it does not round to nearest. For every rate `r` with
`2^-30 <= r <= 1` given as text: `errate` is a `float` `x` in `[2^-30, 1]`
within `r / 2^23` of `r`; the quotient `1/errate` is a `float` `q` within
`(1/x) / 2^24` of `1/x`; and `send_err_cycle` is the integer part of `q`,
which is at least 1 (so the clamp of line 315 is idle) and at most `2^30`. -/
theorem cycle_from_rate (r : ℚ) (cf : Config) (hlo : (2 : ℚ) ^ (-30 : Int) ≤ r) (hhi : r ≤ 1) :
    ∃ x q : ℚ, (to_double r).to_float = .finite x ∧ (2 : ℚ) ^ (-30 : Int) ≤ x ∧ x ≤ 1 ∧
      |x - r| ≤ r / 2 ^ 23 ∧
      to_float (1 / x) = .finite q ∧ |q - 1 / x| ≤ 1 / x / 2 ^ 24 ∧
      main_errate (to_double r) cf
        = some { cf with errate := .finite x, send_err_cycle := ⌊q⌋ } ∧
      1 ≤ ⌊q⌋ ∧ ⌊q⌋ ≤ 2 ^ 30 := by
  have hhi0 : r ≤ (2 : ℚ) ^ (0 : Int) := by simpa using hhi
  obtain ⟨d, hd, hd1, hd2, hd3⟩ :=
    roundNE_spec 53 (-1022) 1023 r (-30) 0 (by norm_num) hlo hhi0 (by norm_num) (by norm_num)
  obtain ⟨x, hx, hx1, hx2, hx3⟩ :=
    roundNE_spec 24 (-126) 127 d (-30) 0 (by norm_num) hd1 hd2 (by norm_num) (by norm_num)
  have hxpos : 0 < x := lt_of_lt_of_le (two_zpow_pos _) hx1
  have hx2' : x ≤ 1 := by simpa using hx2
  have hv1 : (2 : ℚ) ^ (0 : Int) ≤ 1 / x := by
    rw [zpow_zero, le_div_iff₀ hxpos]; linarith
  have hv2 : 1 / x ≤ (2 : ℚ) ^ (30 : Int) := by
    rw [div_le_iff₀ hxpos]
    have h30 : (2 : ℚ) ^ (30 : Int) * 2 ^ (-30 : Int) = 1 := by
      rw [← zpow_add₀ (by norm_num : (2 : ℚ) ≠ 0)]; norm_num
    have := mul_le_mul_of_nonneg_left hx1 (two_zpow_pos 30).le
    linarith
  obtain ⟨q, hq, hq1, hq2, hq3⟩ :=
    roundNE_spec 24 (-126) 127 (1 / x) 0 30 (by norm_num) hv1 hv2 (by norm_num) (by norm_num)
  have hq1' : 1 ≤ q := by simpa using hq1
  have hq2' : q ≤ 2 ^ 30 := by
    have : (2 : ℚ) ^ (30 : Int) = 2 ^ 30 := by norm_num
    rw [← this]; exact hq2
  have hxf : (to_double r).to_float = .finite x := by
    rw [to_double, hd]; exact hx
  have hrpos : 0 < r := lt_of_lt_of_le (two_zpow_pos _) hlo
  refine ⟨x, q, hxf, hx1, hx2', ?_, hq, hq3, ?_, Int.le_floor.mpr (by simpa using hq1'), ?_⟩
  · rw [abs_le] at hd3 hx3 ⊢
    norm_num at hd3 hx3 ⊢
    constructor <;> linarith
  · exact main_errate_of (to_double r) x q cf hxf hxpos hx2' hq hq1' (by linarith)
  · have h1 : ((⌊q⌋ : Int) : ℚ) ≤ q := Int.floor_le q
    have h2 : ((⌊q⌋ : Int) : ℚ) ≤ ((2 ^ 30 : Int) : ℚ) := by push_cast; linarith
    exact_mod_cast h2

theorem cycle_from_rate_witness :
    ∃ x q : ℚ, (to_double (3 / 5)).to_float = .finite x ∧ (2 : ℚ) ^ (-30 : Int) ≤ x ∧ x ≤ 1 ∧
      |x - 3 / 5| ≤ 3 / 5 / 2 ^ 23 ∧
      to_float (1 / x) = .finite q ∧ |q - 1 / x| ≤ 1 / x / 2 ^ 24 ∧
      main_errate (to_double (3 / 5)) Config.initial
        = some { Config.initial with errate := .finite x, send_err_cycle := ⌊q⌋ } ∧
      1 ≤ ⌊q⌋ ∧ ⌊q⌋ ≤ 2 ^ 30 :=
  cycle_from_rate (3 / 5) Config.initial (by norm_num) (by norm_num)

/-- C3 as stated fails: for the rate 0.6 the code computes the cycle length
1, while `max(1, round(1 / 0.6)) = max(1, round(1.67)) = 2`. -/
theorem cycle_from_rate_counterexample :
    (0 : ℚ) < 3 / 5 ∧ (3 / 5 : ℚ) ≤ 1 ∧ cycle_of_rate (3 / 5) = some 1 ∧
    max 1 (round ((1 : ℚ) / (3 / 5))) = 2 := by
  refine ⟨by norm_num, by norm_num, ?_, ?_⟩
  · rw [cycle_of_rate, main_errate_three_fifths]
    rfl
  · have : round ((1 : ℚ) / (3 / 5)) = 2 := by
      rw [round_eq, Int.floor_eq_iff]; norm_num
    rw [this]; rfl

theorem main_arg_errate (atoi : List Char → Int) (atof : List Char → FloatVal)
    (arg p : List Char) (cf : Config) (h1 : (find_sub "bg".toList arg).isSome = false)
    (h2 : (find_sub "back".toList arg).isSome = false)
    (h3 : (find_sub "delay=".toList arg).isSome = false)
    (h4 : (find_sub "errate=".toList arg).isSome = true) (h5 : after_char '=' arg = some p) :
    main_arg atoi atof arg cf = main_errate (atof p) cf := by
  simp only [main_arg, h1, h2, h3, h4, h5, Bool.or_self, Bool.false_eq_true, if_false, if_true]

/-- C8, evaluated on the code. With the arguments `errate=0.5 errate=0`
(whatever `atoi` is, and for an `atof` that reads `0.5` and `0` as such) the
rate in effect is 0, yet `send_err_cycle` stays 2, and with it every second
complete request of a worker draws an error. -/
theorem errate_zero_after_nonzero (atoi : List Char → Int) (atof : List Char → FloatVal)
    (h1 : atof "0.5".toList = .finite (1 / 2)) (h2 : atof "0".toList = .finite 0) :
    main_args atoi atof ["errate=0.5", "errate=0"] Config.initial
      = some { is_bg := 0, delay := 0, errate := .finite 0, send_err_cycle := 2 } ∧
    ∃ s2 tr, (Sys.init 0 2).run four_requests = some (s2, tr) ∧
      responses tr = [ok_response, err_response[0], ok_response, err_response[1]] := by
  constructor
  · have e1 := main_arg_errate atoi atof "errate=0.5".toList "0.5".toList Config.initial
      (by decide) (by decide) (by decide) (by decide) (by decide)
    have e2 := main_arg_errate atoi atof "errate=0".toList "0".toList
      { Config.initial with errate := .finite (1 / 2), send_err_cycle := 2 }
      (by decide) (by decide) (by decide) (by decide) (by decide)
    rw [h1, main_errate_one_half] at e1
    rw [h2, main_errate_zero] at e2
    simp only [main_args, e1, Option.bind_eq_bind, Option.some_bind, e2]
    rfl
  · obtain ⟨s2, tr, hrun, -, -⟩ :=
      run_inv 2 (by decide) (by decide) four_requests _ (init_inv 0 2 (by decide))
    exact ⟨s2, tr, hrun, run_cycle_two 0 0 four_requests s2 tr (by decide) (by decide) hrun⟩

theorem errate_zero_after_nonzero_witness :
    main_args atoi_sample atof_sample ["errate=0.5", "errate=0"] Config.initial
      = some { is_bg := 0, delay := 0, errate := .finite 0, send_err_cycle := 2 } ∧
    ∃ s2 tr, (Sys.init 0 2).run four_requests = some (s2, tr) ∧
      responses tr = [ok_response, err_response[0], ok_response, err_response[1]] :=
  errate_zero_after_nonzero atoi_sample atof_sample (if_pos rfl) (if_neg (by decide))

end HttpServer
